import Mathlib

set_option maxHeartbeats 1000000

/-!
Verification of the legalsay frontend's text, store and streaming logic.
JavaScript strings are modelled as `List Char`; each definition mirrors one
function of the source (`src/unnamed/part_000` = `lib/textUtils.ts`,
`src/unnamed/part_001` = `lib/contract-store.ts`, `src/lib/api.ts`,
`src/app/negotiation/page.tsx`).
-/

namespace LegalSay

/-- The whitespace class of JavaScript regexes (`\s`), which is also the
set `String.prototype.trim` removes. -/
def jsWs (c : Char) : Bool :=
  c = ' ' || c = '\t' || c = '\n' || c = '\r' || c = '\x0b' || c = '\x0c' ||
  c = ' ' || c = ' ' || (0x2000 ≤ c.toNat && c.toNat ≤ 0x200a) ||
  c = ' ' || c = ' ' || c = ' ' || c = ' ' ||
  c = '　' || c = '﻿'

/-- `String.prototype.trim`: strip whitespace from both ends. -/
def jsTrim (s : List Char) : List Char :=
  ((s.dropWhile jsWs).reverse.dropWhile jsWs).reverse

/-- `String.prototype.split(sep)` for a one-character separator. -/
def splitOnChar (sep : Char) : List Char → List (List Char)
  | [] => [[]]
  | c :: rest =>
    match splitOnChar sep rest with
    | [] => [[]]
    | piece :: pieces =>
      if c = sep then [] :: piece :: pieces
      else (c :: piece) :: pieces

/-! ## `cleanPdfText` (src/unnamed/part_000) -/

/-- Step 1a of `cleanPdfText`: `rawText.replace(/\r\n/g, '\n')`. -/
def normalizeCRLF : List Char → List Char
  | [] => []
  | [c] => [c]
  | a :: b :: rest =>
    if a = '\r' && b = '\n' then '\n' :: normalizeCRLF rest
    else a :: normalizeCRLF (b :: rest)

/-- Step 1b of `cleanPdfText`: `.replace(/\r/g, '\n')`. -/
def normalizeCR (s : List Char) : List Char :=
  s.map (fun c => if c = '\r' then '\n' else c)

/-- Step 2 of `cleanPdfText`: the `for` loop over lines accumulating
`result`, `currentParagraph` and `emptyLineCount`. -/
def cleanLoop : List (List Char) → List Char → List Char → Nat → List Char
  | [], result, currentParagraph, _ =>
    if currentParagraph.isEmpty then result else result ++ currentParagraph
  | rawLine :: rest, result, currentParagraph, emptyLineCount =>
    let line := jsTrim rawLine
    if line.isEmpty then
      if 2 ≤ emptyLineCount + 1 && !currentParagraph.isEmpty then
        cleanLoop rest (result ++ currentParagraph ++ ['\n', '\n']) [] (emptyLineCount + 1)
      else
        cleanLoop rest result currentParagraph (emptyLineCount + 1)
    else
      cleanLoop rest result
        (if currentParagraph.isEmpty then line else currentParagraph ++ ' ' :: line) 0

/-- Step 3 of `cleanPdfText`: `result.replace(/ +/g, ' ')`.  The flag says
whether we are inside a run of spaces whose first space was already kept. -/
def collapseSpaces : List Char → Bool → List Char
  | [], _ => []
  | c :: rest, inRun =>
    if c = ' ' then
      (if inRun then [] else [' ']) ++ collapseSpaces rest true
    else c :: collapseSpaces rest false

/-- The punctuation class of step 4's regex `/ ([.,;:!?])/g`. -/
def punctAfterSpace (c : Char) : Bool :=
  c = '.' || c = ',' || c = ';' || c = ':' || c = '!' || c = '?'

/-- Step 4 of `cleanPdfText`: `text.replace(/ ([.,;:!?])/g, '$1')`
(left-to-right, non-overlapping, scanning resumes after the kept group). -/
def fixPunctSpacing : List Char → List Char
  | [] => []
  | [c] => [c]
  | a :: b :: rest =>
    if a = ' ' && punctAfterSpace b then b :: fixPunctSpacing rest
    else a :: fixPunctSpacing (b :: rest)

/-- `cleanPdfText` (src/unnamed/part_000 lines 5-51). -/
def cleanPdfText (rawText : List Char) : List Char :=
  let text := normalizeCR (normalizeCRLF rawText)
  let lines := splitOnChar '\n' text
  let result := cleanLoop lines [] [] 0
  fixPunctSpacing (collapseSpaces result false)

/-! Normal-form predicates for C10: the absence of a two-character pattern. -/

/-- No adjacent pair of characters satisfies `bad`. -/
def noBadPair (bad : Char → Char → Bool) : List Char → Bool
  | a :: b :: rest => !bad a b && noBadPair bad (b :: rest)
  | _ => true

def doubleSpace (a b : Char) : Bool := a = ' ' && b = ' '

def spaceBeforePunct (a b : Char) : Bool := a = ' ' && punctAfterSpace b

theorem noBadPair_cons {bad : Char → Char → Bool} {a : Char} {l : List Char} :
    noBadPair bad (a :: l) = true ↔
      (∀ h, l.head? = some h → bad a h = false) ∧ noBadPair bad l = true := by
  cases l with
  | nil => simp [noBadPair]
  | cons b t =>
    simp only [noBadPair, List.head?_cons, Bool.and_eq_true, Bool.not_eq_true']
    constructor
    · rintro ⟨h1, h2⟩
      exact ⟨fun h hh => by cases hh; exact h1, h2⟩
    · rintro ⟨h1, h2⟩
      exact ⟨h1 b rfl, h2⟩

/-! ### No carriage return survives `cleanPdfText` -/

theorem cr_not_mem_normalizeCR (s : List Char) : '\r' ∉ normalizeCR s := by
  intro h
  simp only [normalizeCR, List.mem_map] at h
  obtain ⟨a, _, ha⟩ := h
  by_cases hc : a = '\r'
  · simp [hc] at ha
  · simp [hc] at ha

theorem mem_splitOnChar {sep : Char} {l : List Char} {piece : List Char}
    (hp : piece ∈ splitOnChar sep l) {c : Char} (hc : c ∈ piece) : c ∈ l := by
  induction l generalizing piece with
  | nil =>
    simp [splitOnChar] at hp
    subst hp
    simp at hc
  | cons a rest ih =>
    simp only [splitOnChar] at hp
    rcases hsplit : splitOnChar sep rest with _ | ⟨p, ps⟩
    · rw [hsplit] at hp
      simp at hp
      subst hp
      simp at hc
    · rw [hsplit] at hp
      by_cases ha : a = sep
      · simp only [if_pos ha] at hp
        rcases List.mem_cons.1 hp with hp | hp
        · subst hp; simp at hc
        · exact List.mem_cons_of_mem _ (ih (hsplit ▸ hp) hc)
      · simp only [if_neg ha] at hp
        rcases List.mem_cons.1 hp with hp | hp
        · subst hp
          rcases List.mem_cons.1 hc with hc | hc
          · exact hc ▸ List.mem_cons_self _ _
          · exact List.mem_cons_of_mem _ (ih (hsplit ▸ List.mem_cons_self _ _) hc)
        · exact List.mem_cons_of_mem _ (ih (hsplit ▸ List.mem_cons_of_mem _ hp) hc)

theorem mem_jsTrim {s : List Char} {c : Char} (h : c ∈ jsTrim s) : c ∈ s := by
  simp only [jsTrim, List.mem_reverse] at h
  have h1 := List.dropWhile_sublist (l := (s.dropWhile jsWs).reverse) (p := jsWs)
  have h2 := h1.mem h
  rw [List.mem_reverse] at h2
  exact (List.dropWhile_sublist (l := s) (p := jsWs)).mem h2

theorem mem_cleanLoop {lines : List (List Char)} {result para : List Char} {ec : Nat}
    {c : Char} (h : c ∈ cleanLoop lines result para ec) :
    c ∈ result ∨ c ∈ para ∨ (∃ p ∈ lines, c ∈ p) ∨ c = ' ' ∨ c = '\n' := by
  induction lines generalizing result para ec with
  | nil =>
    simp only [cleanLoop] at h
    split at h
    · exact Or.inl h
    · rcases List.mem_append.1 h with h | h
      · exact Or.inl h
      · exact Or.inr (Or.inl h)
  | cons rawLine rest ih =>
    simp only [cleanLoop] at h
    split at h
    · split at h
      · rcases ih h with h | h | ⟨p, hp, hcp⟩ | h | h
        · rcases List.mem_append.1 h with h | h
          · rcases List.mem_append.1 h with h | h
            · exact Or.inl h
            · exact Or.inr (Or.inl h)
          · simp at h
            simp [h]
        · simp at h
        · exact Or.inr (Or.inr (Or.inl ⟨p, List.mem_cons_of_mem _ hp, hcp⟩))
        · simp [h]
        · simp [h]
      · rcases ih h with h | h | ⟨p, hp, hcp⟩ | h | h
        · exact Or.inl h
        · exact Or.inr (Or.inl h)
        · exact Or.inr (Or.inr (Or.inl ⟨p, List.mem_cons_of_mem _ hp, hcp⟩))
        · simp [h]
        · simp [h]
    · rcases ih h with h | h | ⟨p, hp, hcp⟩ | h | h
      · exact Or.inl h
      · split at h
        · exact Or.inr (Or.inr (Or.inl ⟨rawLine, List.mem_cons_self _ _, mem_jsTrim h⟩))
        · rcases List.mem_append.1 h with h | h
          · exact Or.inr (Or.inl h)
          · rcases List.mem_cons.1 h with h | h
            · simp [h]
            · exact Or.inr (Or.inr (Or.inl ⟨rawLine, List.mem_cons_self _ _, mem_jsTrim h⟩))
      · exact Or.inr (Or.inr (Or.inl ⟨p, List.mem_cons_of_mem _ hp, hcp⟩))
      · simp [h]
      · simp [h]

theorem mem_collapseSpaces {l : List Char} {b : Bool} {c : Char}
    (h : c ∈ collapseSpaces l b) : c ∈ l ∨ c = ' ' := by
  induction l generalizing b with
  | nil => simp [collapseSpaces] at h
  | cons a rest ih =>
    simp only [collapseSpaces] at h
    split at h
    · rcases List.mem_append.1 h with h | h
      · split at h <;> simp at h
        simp [h]
      · rcases ih h with h | h
        · exact Or.inl (List.mem_cons_of_mem _ h)
        · exact Or.inr h
    · rcases List.mem_cons.1 h with h | h
      · exact Or.inl (h ▸ List.mem_cons_self _ _)
      · rcases ih h with h | h
        · exact Or.inl (List.mem_cons_of_mem _ h)
        · exact Or.inr h

theorem mem_fixPunctSpacing {l : List Char} {c : Char}
    (h : c ∈ fixPunctSpacing l) : c ∈ l := by
  induction l using fixPunctSpacing.induct with
  | case1 => simp [fixPunctSpacing] at h
  | case2 d => simp [fixPunctSpacing] at h; simp [h]
  | case3 a b rest hab ih =>
    rw [fixPunctSpacing, if_pos hab] at h
    rcases List.mem_cons.1 h with h | h
    · simp [h]
    · simpa using List.mem_cons_of_mem a (List.mem_cons_of_mem b (ih h))
  | case4 a b rest hab ih =>
    rw [fixPunctSpacing, if_neg hab] at h
    rcases List.mem_cons.1 h with h | h
    · simp [h]
    · exact List.mem_cons_of_mem _ (ih h)

theorem noBadPair_tail {bad : Char → Char → Bool} {a : Char} {l : List Char}
    (h : noBadPair bad (a :: l) = true) : noBadPair bad l = true :=
  (noBadPair_cons.1 h).2

theorem punct_ne_space {c : Char} (h : punctAfterSpace c = true) : c ≠ ' ' := by
  intro hc
  subst hc
  exact absurd h (by decide)

theorem head_collapseSpaces_true (l : List Char) :
    ∀ h, (collapseSpaces l true).head? = some h → h ≠ ' ' := by
  induction l with
  | nil => intro h hh; simp [collapseSpaces] at hh
  | cons a rest ih =>
    intro h hh
    by_cases ha : a = ' '
    · rw [collapseSpaces, if_pos ha] at hh
      exact ih h hh
    · rw [collapseSpaces, if_neg ha] at hh
      simp only [List.head?_cons, Option.some.injEq] at hh
      exact hh ▸ ha

theorem collapseSpaces_noDouble (l : List Char) (b : Bool) :
    noBadPair doubleSpace (collapseSpaces l b) = true := by
  induction l generalizing b with
  | nil => simp [collapseSpaces, noBadPair]
  | cons a rest ih =>
    by_cases ha : a = ' '
    · rw [collapseSpaces, if_pos ha]
      cases b with
      | true => exact ih true
      | false =>
        show noBadPair doubleSpace (' ' :: collapseSpaces rest true) = true
        refine noBadPair_cons.2 ⟨fun h hh => ?_, ih true⟩
        have := head_collapseSpaces_true rest h hh
        simp [doubleSpace, this]
    · rw [collapseSpaces, if_neg ha]
      refine noBadPair_cons.2 ⟨fun h _ => ?_, ih false⟩
      simp [doubleSpace, ha]

theorem fixPunctSpacing_cons_ne_space {c : Char} (hc : c ≠ ' ') (rest : List Char) :
    fixPunctSpacing (c :: rest) = c :: fixPunctSpacing rest := by
  cases rest with
  | nil => simp [fixPunctSpacing]
  | cons b t =>
    rw [fixPunctSpacing, if_neg]
    simp [hc]

theorem fixPunctSpacing_noDouble {l : List Char}
    (hl : noBadPair doubleSpace l = true) :
    noBadPair doubleSpace (fixPunctSpacing l) = true := by
  induction l using fixPunctSpacing.induct with
  | case1 => simp [fixPunctSpacing, noBadPair]
  | case2 c => simp [fixPunctSpacing, noBadPair]
  | case3 a b rest hab ih =>
    rw [fixPunctSpacing, if_pos hab]
    have hb : b ≠ ' ' := punct_ne_space (Bool.and_elim_right hab)
    refine noBadPair_cons.2 ⟨fun h _ => by simp [doubleSpace, hb], ?_⟩
    exact ih (noBadPair_tail (noBadPair_tail hl))
  | case4 a b rest hab ih =>
    rw [fixPunctSpacing, if_neg hab]
    refine noBadPair_cons.2 ⟨fun h hh => ?_, ih (noBadPair_tail hl)⟩
    by_cases ha : a = ' '
    · have hb : b ≠ ' ' := by
        intro hb
        have := (noBadPair_cons.1 hl).1 b (by simp)
        rw [ha, hb] at this
        exact absurd this (by decide)
      rw [fixPunctSpacing_cons_ne_space hb] at hh
      simp only [List.head?_cons, Option.some.injEq] at hh
      simp [doubleSpace, hh ▸ hb]
    · simp [doubleSpace, ha]

theorem fixPunctSpacing_noSpacePunct {l : List Char}
    (hl : noBadPair doubleSpace l = true) :
    noBadPair spaceBeforePunct (fixPunctSpacing l) = true := by
  induction l using fixPunctSpacing.induct with
  | case1 => simp [fixPunctSpacing, noBadPair]
  | case2 c => simp [fixPunctSpacing, noBadPair]
  | case3 a b rest hab ih =>
    rw [fixPunctSpacing, if_pos hab]
    have hb : b ≠ ' ' := punct_ne_space (Bool.and_elim_right hab)
    refine noBadPair_cons.2 ⟨fun h _ => by simp [spaceBeforePunct, hb], ?_⟩
    exact ih (noBadPair_tail (noBadPair_tail hl))
  | case4 a b rest hab ih =>
    rw [fixPunctSpacing, if_neg hab]
    refine noBadPair_cons.2 ⟨fun h hh => ?_, ih (noBadPair_tail hl)⟩
    by_cases ha : a = ' '
    · have hb : b ≠ ' ' := by
        intro hb
        have := (noBadPair_cons.1 hl).1 b (by simp)
        rw [ha, hb] at this
        exact absurd this (by decide)
      have hpb : punctAfterSpace b = false := by
        cases hpb' : punctAfterSpace b
        · rfl
        · exact absurd (by simp [ha, hpb']) hab
      rw [fixPunctSpacing_cons_ne_space hb] at hh
      simp only [List.head?_cons, Option.some.injEq] at hh
      simp [spaceBeforePunct, ha, hh ▸ hpb]
    · simp [spaceBeforePunct, ha]

/-- C10: for every input string, `cleanPdfText` yields text containing no
carriage return, no two consecutive spaces, and no space immediately
before any of the punctuation characters `. , ; : ! ?`. -/
theorem cleanPdfText_normal_form (raw : List Char) :
    '\r' ∉ cleanPdfText raw ∧
    noBadPair doubleSpace (cleanPdfText raw) = true ∧
    noBadPair spaceBeforePunct (cleanPdfText raw) = true := by
  refine ⟨?_, ?_, ?_⟩
  · intro h
    unfold cleanPdfText at h
    have h1 := mem_fixPunctSpacing h
    rcases mem_collapseSpaces h1 with h2 | h2
    · rcases mem_cleanLoop h2 with h3 | h3 | ⟨p, hp, hcp⟩ | h3 | h3
      · simp at h3
      · simp at h3
      · exact cr_not_mem_normalizeCR _ (mem_splitOnChar hp hcp)
      · exact absurd h3 (by decide)
      · exact absurd h3 (by decide)
    · exact absurd h2 (by decide)
  · exact fixPunctSpacing_noDouble (collapseSpaces_noDouble _ false)
  · exact fixPunctSpacing_noSpacePunct (collapseSpaces_noDouble _ false)

/-! ## Contract store (src/unnamed/part_001 = the zustand contract store) -/

/-- Decimal digits of a natural number, least significant first. -/
def lsbDigits : Nat → List Nat
  | 0 => []
  | n + 1 => ((n + 1) % 10) :: lsbDigits ((n + 1) / 10)
decreasing_by exact Nat.div_lt_self (Nat.succ_pos n) (by decide)

def decChar : Nat → Char
  | 0 => '0'
  | 1 => '1'
  | 2 => '2'
  | 3 => '3'
  | 4 => '4'
  | 5 => '5'
  | 6 => '6'
  | 7 => '7'
  | 8 => '8'
  | _ => '9'

/-- Decimal rendering of a natural number, as JS converts a number to a
string (template interpolation, `JSON.stringify`). -/
def natToChars (n : Nat) : List Char :=
  if n = 0 then ['0'] else ((lsbDigits n).map decChar).reverse

inductive FlagType
  | red
  | yellow
  | green
deriving DecidableEq, Repr

structure FlagWithText where
  id : List Char
  analysis : List Char
  original_text : List Char
  type : FlagType
deriving DecidableEq, Repr

/-- A flag as it arrives from the backend: `convertAnalysisToFlags` accepts
either a bare string or an `{analysis, original_text}` record
(the `typeof flag === 'string'` check). -/
inductive RawFlag
  | strFlag (s : List Char)
  | objFlag (analysis original_text : List Char)
deriving DecidableEq, Repr

/-- The `flagData` normalization inside each `forEach` body. -/
def flagData : RawFlag → List Char × List Char
  | .strFlag s => (s, "N/A".toList)
  | .objFlag a o => (a, o)

structure AnalysisResult where
  contract_type : List Char
  jurisdiction : List Char
  key_details : List (List Char × List Char)
  red_flags : List RawFlag
  yellow_flags : List RawFlag
  green_flags : List RawFlag
  plain_english_summary : List Char
  total_health_score : Nat
deriving DecidableEq, Repr

/-- `forEach` with the element index, pushing one converted flag each. -/
def mapIdxFrom (f : Nat → α → β) : Nat → List α → List β
  | _, [] => []
  | i, a :: as => f i a :: mapIdxFrom f (i + 1) as

/-- One converted flag of `convertAnalysisToFlags`. -/
def mkFlag (t : FlagType) (sev : List Char) (idx : Nat) (flag : RawFlag) : FlagWithText :=
  { id := sev ++ '-' :: natToChars idx
    analysis := (flagData flag).1
    original_text := (flagData flag).2
    type := t }

/-- `convertAnalysisToFlags` (src/unnamed/part_001 lines 31-80): reds, then
yellows, then greens, each numbered from 0. -/
def convertAnalysisToFlags (analysis : AnalysisResult) : List FlagWithText :=
  mapIdxFrom (mkFlag .red "red".toList) 0 analysis.red_flags ++
  mapIdxFrom (mkFlag .yellow "yellow".toList) 0 analysis.yellow_flags ++
  mapIdxFrom (mkFlag .green "green".toList) 0 analysis.green_flags

structure StoredFile where
  name : List Char
  size : Nat
deriving DecidableEq, Repr

structure ContractState where
  contractId : List Char
  file : Option StoredFile
  contractContent : List Char
  analysisResult : Option AnalysisResult
  flags : List FlagWithText
  jurisdiction : List Char
deriving DecidableEq, Repr

/-- `setAnalysis` (src/unnamed/part_001 lines 103-109): one `set` call
updating the analysis result and the derived flags together. -/
def setAnalysis (analysis : AnalysisResult) (st : ContractState) : ContractState :=
  { st with
    analysisResult := some analysis
    flags := convertAnalysisToFlags analysis }

/-- `removeNegotiatedClause` (src/unnamed/part_001 lines 111-115). -/
def removeNegotiatedClause (clauseId : List Char) (st : ContractState) : ContractState :=
  { st with flags := st.flags.filter (fun flag => flag.id ≠ clauseId) }

theorem mapIdxFrom_get? (f : Nat → α → β) (k : Nat) (l : List α) (i : Nat) :
    (mapIdxFrom f k l).get? i = (l.get? i).map (f (k + i)) := by
  induction l generalizing k i with
  | nil => simp [mapIdxFrom]
  | cons a as ih =>
    cases i with
    | zero => simp [mapIdxFrom]
    | succ j =>
      simp only [mapIdxFrom, List.get?_cons_succ]
      rw [ih (k + 1) j]
      have hkj : k + 1 + j = k + (j + 1) := by omega
      rw [hkj]

theorem mapIdxFrom_length (f : Nat → α → β) (k : Nat) (l : List α) :
    (mapIdxFrom f k l).length = l.length := by
  induction l generalizing k with
  | nil => rfl
  | cons a as ih => simp [mapIdxFrom, ih]

/-- C9: `removeNegotiatedClause` removes exactly the flags whose id is
`clauseId`, keeps the remaining flags in order (a sublist), and leaves
every other store field unchanged. -/
theorem removeNegotiatedClause_spec (st : ContractState) (clauseId : List Char) :
    (removeNegotiatedClause clauseId st).flags.Sublist st.flags ∧
    (∀ f : FlagWithText,
      f ∈ (removeNegotiatedClause clauseId st).flags ↔ f ∈ st.flags ∧ f.id ≠ clauseId) ∧
    (∀ f : FlagWithText,
      (removeNegotiatedClause clauseId st).flags.count f =
        if f.id = clauseId then 0 else st.flags.count f) ∧
    (removeNegotiatedClause clauseId st).contractId = st.contractId ∧
    (removeNegotiatedClause clauseId st).file = st.file ∧
    (removeNegotiatedClause clauseId st).contractContent = st.contractContent ∧
    (removeNegotiatedClause clauseId st).analysisResult = st.analysisResult ∧
    (removeNegotiatedClause clauseId st).jurisdiction = st.jurisdiction := by
  refine ⟨List.filter_sublist _, fun f => ?_, fun f => ?_, rfl, rfl, rfl, rfl, rfl⟩
  · simp [removeNegotiatedClause, List.mem_filter]
  · by_cases hf : f.id = clauseId
    · rw [if_pos hf]
      refine List.count_eq_zero.2 fun hmem => ?_
      have := (List.mem_filter.1 hmem).2
      simp [hf] at this
    · rw [if_neg hf]
      exact List.count_filter (by simp [hf])

/-- C7: `setAnalysis` derives one flag per backend flag, in order — reds
first, then yellows, then greens, ids `red-i` / `yellow-i` / `green-i` by
position in the severity group — and writes the analysis result and the
derived list in the same single update, leaving all other fields unchanged. -/
theorem setAnalysis_spec (analysis : AnalysisResult) (st : ContractState) :
    (setAnalysis analysis st).analysisResult = some analysis ∧
    (setAnalysis analysis st).flags.length =
      analysis.red_flags.length + analysis.yellow_flags.length +
        analysis.green_flags.length ∧
    (∀ i f, analysis.red_flags.get? i = some f →
      (setAnalysis analysis st).flags.get? i =
        some { id := "red".toList ++ '-' :: natToChars i
               analysis := (flagData f).1
               original_text := (flagData f).2
               type := .red }) ∧
    (∀ i f, analysis.yellow_flags.get? i = some f →
      (setAnalysis analysis st).flags.get? (analysis.red_flags.length + i) =
        some { id := "yellow".toList ++ '-' :: natToChars i
               analysis := (flagData f).1
               original_text := (flagData f).2
               type := .yellow }) ∧
    (∀ i f, analysis.green_flags.get? i = some f →
      (setAnalysis analysis st).flags.get?
          (analysis.red_flags.length + analysis.yellow_flags.length + i) =
        some { id := "green".toList ++ '-' :: natToChars i
               analysis := (flagData f).1
               original_text := (flagData f).2
               type := .green }) ∧
    (setAnalysis analysis st).contractId = st.contractId ∧
    (setAnalysis analysis st).file = st.file ∧
    (setAnalysis analysis st).contractContent = st.contractContent ∧
    (setAnalysis analysis st).jurisdiction = st.jurisdiction := by
  refine ⟨rfl, ?_, fun i f hf => ?_, fun i f hf => ?_, fun i f hf => ?_, rfl, rfl, rfl, rfl⟩
  · simp only [setAnalysis, convertAnalysisToFlags, List.length_append, mapIdxFrom_length]
  · have hi : i < analysis.red_flags.length := by
      by_contra hge
      rw [List.get?_eq_none.2 (Nat.le_of_not_lt hge)] at hf
      cases hf
    show (convertAnalysisToFlags analysis).get? i = _
    rw [convertAnalysisToFlags, List.append_assoc, List.get?_append
      (by rw [mapIdxFrom_length]; exact hi), mapIdxFrom_get?, hf]
    simp [mkFlag]
  · have hi : i < analysis.yellow_flags.length := by
      by_contra hge
      rw [List.get?_eq_none.2 (Nat.le_of_not_lt hge)] at hf
      cases hf
    show (convertAnalysisToFlags analysis).get? _ = _
    rw [convertAnalysisToFlags, List.get?_append
      (by simp only [List.length_append, mapIdxFrom_length]; omega)]
    rw [List.get?_append_right (by rw [mapIdxFrom_length]; omega)]
    rw [mapIdxFrom_length]
    have hsub : analysis.red_flags.length + i - analysis.red_flags.length = i := by omega
    rw [hsub, mapIdxFrom_get?, hf]
    simp [mkFlag]
  · have hi : i < analysis.green_flags.length := by
      by_contra hge
      rw [List.get?_eq_none.2 (Nat.le_of_not_lt hge)] at hf
      cases hf
    show (convertAnalysisToFlags analysis).get? _ = _
    rw [convertAnalysisToFlags, List.get?_append_right
      (by simp only [List.length_append, mapIdxFrom_length]; omega)]
    simp only [List.length_append, mapIdxFrom_length]
    have hsub : analysis.red_flags.length + analysis.yellow_flags.length + i -
        (analysis.red_flags.length + analysis.yellow_flags.length) = i := by omega
    rw [hsub, mapIdxFrom_get?, hf]
    simp [mkFlag]

/-! ## Decimal digit facts (for flag ids and JSON numbers) -/

def isDigitChar (c : Char) : Bool := 48 ≤ c.toNat && c.toNat ≤ 57

theorem decChar_toNat {d : Nat} (h : d < 10) : (decChar d).toNat = 48 + d := by
  interval_cases d <;> rfl

theorem lsbDigits_lt10 {n : Nat} : ∀ d ∈ lsbDigits n, d < 10 := by
  induction n using Nat.strong_induction_on with
  | _ n ih =>
    cases n with
    | zero => intro d hd; simp [lsbDigits] at hd
    | succ m =>
      intro d hd
      rw [lsbDigits] at hd
      rcases List.mem_cons.1 hd with hd | hd
      · subst hd; exact Nat.mod_lt _ (by decide)
      · exact ih ((m + 1) / 10) (Nat.div_lt_self (Nat.succ_pos m) (by decide)) d hd

/-- Value of a least-significant-first digit list. -/
def valLSB : List Nat → Nat
  | [] => 0
  | d :: t => d + 10 * valLSB t

theorem valLSB_lsbDigits (n : Nat) : valLSB (lsbDigits n) = n := by
  induction n using Nat.strong_induction_on with
  | _ n ih =>
    cases n with
    | zero => simp [lsbDigits, valLSB]
    | succ m =>
      rw [lsbDigits, valLSB,
        ih ((m + 1) / 10) (Nat.div_lt_self (Nat.succ_pos m) (by decide))]
      exact Nat.mod_add_div _ _

theorem natToChars_all_digits (n : Nat) : ∀ c ∈ natToChars n, isDigitChar c = true := by
  intro c hc
  rw [natToChars] at hc
  split at hc
  · simp at hc
    subst hc; rfl
  · rw [List.mem_reverse, List.mem_map] at hc
    obtain ⟨d, hd, hdc⟩ := hc
    have hlt := lsbDigits_lt10 d hd
    subst hdc
    simp [isDigitChar, decChar_toNat hlt]
    omega

theorem natToChars_ne_nil (n : Nat) : natToChars n ≠ [] := by
  rw [natToChars]
  split
  · simp
  · next h =>
    cases hn : lsbDigits n with
    | nil =>
      exfalso
      apply h
      have := valLSB_lsbDigits n
      rw [hn] at this
      exact this.symm
    | cons d t => simp [hn]

/-- Parsing a digit run: fold each digit into an accumulator. -/
def digitStep (acc : Nat) (c : Char) : Nat := acc * 10 + (c.toNat - 48)

theorem foldl_digitStep_natToChars (n : Nat) :
    (natToChars n).foldl digitStep 0 = n := by
  rw [natToChars]
  split
  · next h => subst h; rfl
  · rw [List.foldl_reverse, List.foldr_map]
    have hgen : ∀ dl : List Nat, (∀ d ∈ dl, d < 10) →
        List.foldr (fun d acc => digitStep acc (decChar d)) 0 dl = valLSB dl := by
      intro dl hdl
      induction dl with
      | nil => rfl
      | cons d t iht =>
        rw [List.foldr_cons, valLSB, iht (fun x hx => hdl x (List.mem_cons_of_mem _ hx))]
        rw [digitStep, decChar_toNat (hdl d (List.mem_cons_self _ _))]
        omega
    rw [hgen (lsbDigits n) (fun d hd => lsbDigits_lt10 d hd), valLSB_lsbDigits]

/-! ## JSON

A model of JS `JSON.stringify` / `JSON.parse` on the value shapes this
client exchanges (numbers restricted to naturals).  The parser is a
strict recursive-descent JSON reader with whitespace skipping; the
printer emits the canonical compact form. -/

inductive Json where
  | null
  | bool (b : Bool)
  | num (n : Nat)
  | str (s : List Char)
  | arr (elems : List Json)
  | obj (fields : List (List Char × Json))

/-- JSON whitespace (as `JSON.parse` skips between tokens). -/
def jsonWsChar (c : Char) : Bool := c = ' ' || c = '\t' || c = '\n' || c = '\r'

def skipWs (s : List Char) : List Char := s.dropWhile jsonWsChar

/-- How `JSON.stringify` escapes one character of a string (the escapes
this model supports; other control characters are outside `Json.wf`). -/
def escapeJsonChar (c : Char) : List Char :=
  if c = '"' then ['\\', '"']
  else if c = '\\' then ['\\', '\\']
  else if c = '\n' then ['\\', 'n']
  else if c = '\r' then ['\\', 'r']
  else if c = '\t' then ['\\', 't']
  else [c]

def encodeStr (s : List Char) : List Char :=
  '"' :: s.flatMap escapeJsonChar ++ ['"']

mutual

def encodeJson : Json → List Char
  | .null => 'n' :: 'u' :: 'l' :: 'l' :: []
  | .bool true => 't' :: 'r' :: 'u' :: 'e' :: []
  | .bool false => 'f' :: 'a' :: 'l' :: 's' :: 'e' :: []
  | .num n => natToChars n
  | .str s => encodeStr s
  | .arr es => '[' :: encodeElems es ++ [']']
  | .obj fs => '\x7b' :: encodeFields fs ++ ['\x7d']

def encodeElems : List Json → List Char
  | [] => []
  | [e] => encodeJson e
  | e :: rest => encodeJson e ++ ',' :: encodeElems rest

def encodeFields : List (List Char × Json) → List Char
  | [] => []
  | [(k, v)] => encodeStr k ++ ':' :: encodeJson v
  | (k, v) :: rest => encodeStr k ++ ':' :: encodeJson v ++ ',' :: encodeFields rest

end

/-- String-body reader: everything after an opening `"` up to the closing
quote, decoding escapes; fails on raw control characters or an unknown
escape, as `JSON.parse` does. -/
def parseStringBody : List Char → Option (List Char × List Char)
  | [] => none
  | c :: rest =>
    if c = '"' then some ([], rest)
    else if c = '\\' then
      match rest with
      | [] => none
      | e :: rest' =>
        let dec : Option Char :=
          if e = '"' then some '"'
          else if e = '\\' then some '\\'
          else if e = '/' then some '/'
          else if e = 'n' then some '\n'
          else if e = 'r' then some '\r'
          else if e = 't' then some '\t'
          else if e = 'b' then some '\x08'
          else if e = 'f' then some '\x0c'
          else none
        match dec with
        | none => none
        | some d => (parseStringBody rest').map (fun p => (d :: p.1, p.2))
    else if c.toNat < 32 then none
    else (parseStringBody rest).map (fun p => (c :: p.1, p.2))

/-- Digit-run reader for JSON numbers. -/
def parseNat (s : List Char) : Option (Nat × List Char) :=
  let ds := s.takeWhile isDigitChar
  if ds.isEmpty then none
  else some (ds.foldl digitStep 0, s.dropWhile isDigitChar)

mutual

def parseValue : Nat → List Char → Option (Json × List Char)
  | 0, _ => none
  | fuel + 1, s =>
    match skipWs s with
    | [] => none
    | c :: rest =>
      if c = 'n' then
        if rest.take 3 = ['u', 'l', 'l'] then some (.null, rest.drop 3) else none
      else if c = 't' then
        if rest.take 3 = ['r', 'u', 'e'] then some (.bool true, rest.drop 3) else none
      else if c = 'f' then
        if rest.take 4 = ['a', 'l', 's', 'e'] then some (.bool false, rest.drop 4)
        else none
      else if c = '"' then
        (parseStringBody rest).map (fun p => (.str p.1, p.2))
      else if isDigitChar c then
        (parseNat (c :: rest)).map (fun p => (.num p.1, p.2))
      else if c = '[' then
        if (skipWs rest).head? = some ']' then some (.arr [], (skipWs rest).tail)
        else parseElems fuel rest []
      else if c = '\x7b' then
        if (skipWs rest).head? = some '\x7d' then some (.obj [], (skipWs rest).tail)
        else parseFields fuel rest []
      else none

def parseElems : Nat → List Char → List Json → Option (Json × List Char)
  | 0, _, _ => none
  | fuel + 1, s, acc =>
    match parseValue fuel s with
    | none => none
    | some (v, r) =>
      match skipWs r with
      | ',' :: r' => parseElems fuel r' (acc ++ [v])
      | ']' :: r' => some (.arr (acc ++ [v]), r')
      | _ => none

def parseFields : Nat → List Char → List (List Char × Json) →
    Option (Json × List Char)
  | 0, _, _ => none
  | fuel + 1, s, acc =>
    match skipWs s with
    | '"' :: r =>
      match parseStringBody r with
      | none => none
      | some (k, r1) =>
        match skipWs r1 with
        | ':' :: r2 =>
          match parseValue fuel r2 with
          | none => none
          | some (v, r3) =>
            match skipWs r3 with
            | ',' :: r4 => parseFields fuel r4 (acc ++ [(k, v)])
            | '\x7d' :: r4 => some (.obj (acc ++ [(k, v)]), r4)
            | _ => none
        | _ => none
    | _ => none

end

/-- `JSON.parse`: parse one value and require only whitespace after it. -/
def jsonParse (s : List Char) : Option Json :=
  match parseValue (2 * s.length + 2) s with
  | some (v, r) => if (skipWs r).isEmpty then some v else none
  | none => none

/-- Characters this JSON model can print and re-read inside strings:
anything printable plus the escaped controls. -/
def wfChar (c : Char) : Bool :=
  (32 ≤ c.toNat) || c = '\n' || c = '\r' || c = '\t'

mutual

def Json.wf : Json → Bool
  | .null => true
  | .bool _ => true
  | .num _ => true
  | .str s => s.all wfChar
  | .arr es => wfElems es
  | .obj fs => wfFields fs

def wfElems : List Json → Bool
  | [] => true
  | e :: t => e.wf && wfElems t

def wfFields : List (List Char × Json) → Bool
  | [] => true
  | (k, v) :: t => k.all wfChar && v.wf && wfFields t

end

mutual

/-- Fuel sufficient for `parseValue` to read a value back. -/
def jsonFuel : Json → Nat
  | .arr es => 1 + fuelElems es
  | .obj fs => 1 + fuelFields fs
  | _ => 1

def fuelElems : List Json → Nat
  | [] => 0
  | e :: t => 1 + jsonFuel e + fuelElems t

def fuelFields : List (List Char × Json) → Nat
  | [] => 0
  | kv :: t => 1 + jsonFuel kv.2 + fuelFields t

end

theorem jsonFuel_pos (v : Json) : 1 ≤ jsonFuel v := by
  cases v <;> simp [jsonFuel]

theorem fuelElems_pos {es : List Json} (h : es ≠ []) : 1 ≤ fuelElems es := by
  cases es with
  | nil => exact absurd rfl h
  | cons e t => simp [fuelElems]; omega

theorem fuelFields_pos {fs : List (List Char × Json)} (h : fs ≠ []) :
    1 ≤ fuelFields fs := by
  cases fs with
  | nil => exact absurd rfl h
  | cons kv t => simp [fuelFields]; omega

mutual

theorem jsonFuel_le_encode (v : Json) : jsonFuel v ≤ 2 * (encodeJson v).length := by
  cases v with
  | null => simp [jsonFuel, encodeJson]
  | bool b => cases b <;> simp [jsonFuel, encodeJson]
  | num n =>
    have := natToChars_ne_nil n
    have hlen : 1 ≤ (natToChars n).length := by
      cases hn : natToChars n with
      | nil => exact absurd hn this
      | cons c t => simp
    simp [jsonFuel, encodeJson]
    omega
  | str s => simp [jsonFuel, encodeJson, encodeStr]; omega
  | arr es =>
    have h := fuelElems_le_encode es
    simp only [jsonFuel, encodeJson, List.length_cons, List.length_append,
      List.length_singleton]
    omega
  | obj fs =>
    have h := fuelFields_le_encode fs
    simp only [jsonFuel, encodeJson, List.length_cons, List.length_append,
      List.length_singleton]
    omega

theorem fuelElems_le_encode (es : List Json) :
    fuelElems es ≤ 2 * (encodeElems es).length + 1 := by
  cases es with
  | nil => simp [fuelElems]
  | cons e t =>
    cases t with
    | nil =>
      have h := jsonFuel_le_encode e
      simp only [fuelElems, encodeElems, List.length_nil]
      omega
    | cons e' t' =>
      have h := jsonFuel_le_encode e
      have h2 := fuelElems_le_encode (e' :: t')
      simp only [fuelElems] at h2
      simp only [fuelElems, encodeElems, List.length_append, List.length_cons]
      omega

theorem fuelFields_le_encode (fs : List (List Char × Json)) :
    fuelFields fs ≤ 2 * (encodeFields fs).length + 1 := by
  cases fs with
  | nil => simp [fuelFields]
  | cons kv t =>
    obtain ⟨k, v⟩ := kv
    cases t with
    | nil =>
      have h := jsonFuel_le_encode v
      simp only [fuelFields, encodeFields, List.length_append, List.length_cons]
      omega
    | cons kv' t' =>
      have h := jsonFuel_le_encode v
      have h2 := fuelFields_le_encode (kv' :: t')
      simp only [fuelFields] at h2
      simp only [fuelFields, encodeFields, List.length_append, List.length_cons]
      omega

end

theorem skipWs_cons {c : Char} (hc : jsonWsChar c = false) (t : List Char) :
    skipWs (c :: t) = c :: t := by
  simp [skipWs, List.dropWhile_cons, hc]

theorem takeWhile_dropWhile_append {p : Char → Bool} {l r : List Char}
    (hl : ∀ c ∈ l, p c = true) (hr : ∀ c, r.head? = some c → p c = false) :
    (l ++ r).takeWhile p = l ∧ (l ++ r).dropWhile p = r := by
  induction l with
  | nil =>
    simp only [List.nil_append]
    cases r with
    | nil => simp
    | cons c t =>
      have := hr c rfl
      simp [List.takeWhile_cons, List.dropWhile_cons, this]
  | cons a l ih =>
    have ha := hl a (List.mem_cons_self _ _)
    have hrec := ih (fun c hc => hl c (List.mem_cons_of_mem _ hc))
    simp [List.takeWhile_cons, List.dropWhile_cons, ha, hrec.1, hrec.2]

theorem natToChars_not_isEmpty (n : Nat) : (natToChars n).isEmpty = false := by
  cases hn : natToChars n with
  | nil => exact absurd hn (natToChars_ne_nil n)
  | cons c t => simp [List.isEmpty]

theorem parseNat_round (n : Nat) {rest : List Char}
    (hrest : ∀ c, rest.head? = some c → isDigitChar c = false) :
    parseNat (natToChars n ++ rest) = some (n, rest) := by
  obtain ⟨htake, hdrop⟩ :=
    takeWhile_dropWhile_append (natToChars_all_digits n) hrest
  simp only [parseNat, htake, hdrop, natToChars_not_isEmpty n,
    Bool.false_eq_true, if_false, foldl_digitStep_natToChars]

theorem parseStringBody_round {s : List Char} (hs : ∀ c ∈ s, wfChar c = true)
    (rest : List Char) :
    parseStringBody (s.flatMap escapeJsonChar ++ '"' :: rest) = some (s, rest) := by
  induction s with
  | nil => rw [List.flatMap_nil, List.nil_append, parseStringBody.eq_def]; simp
  | cons c t ih =>
    have hc := hs c (List.mem_cons_self _ _)
    have iht := ih (fun x hx => hs x (List.mem_cons_of_mem _ hx))
    rw [List.flatMap_cons, List.append_assoc]
    by_cases h1 : c = '"'
    · subst h1
      simp [escapeJsonChar, parseStringBody, iht]
    · by_cases h2 : c = '\\'
      · subst h2
        simp [escapeJsonChar, parseStringBody, iht]
      · by_cases h3 : c = '\n'
        · subst h3
          simp [escapeJsonChar, parseStringBody, iht]
        · by_cases h4 : c = '\r'
          · subst h4
            simp [escapeJsonChar, parseStringBody, iht]
          · by_cases h5 : c = '\t'
            · subst h5
              simp [escapeJsonChar, parseStringBody, iht]
            · have h32 : ¬(c.toNat < 32) := by
                simp only [wfChar, Bool.or_eq_true, decide_eq_true_eq] at hc
                rcases hc with ((h | h) | h) | h
                · omega
                · exact absurd h h3
                · exact absurd h h4
                · exact absurd h h5
              have hesc : escapeJsonChar c = [c] := by
                simp [escapeJsonChar, h1, h2, h3, h4, h5]
              rw [hesc, List.singleton_append]
              rw [parseStringBody.eq_def]
              simp [h1, h2, h32, iht]

theorem isDigitChar_facts {c : Char} (h : isDigitChar c = true) :
    jsonWsChar c = false ∧ c ≠ 'n' ∧ c ≠ 't' ∧ c ≠ 'f' ∧ c ≠ '"' ∧
      c ≠ ']' ∧ c ≠ '\x7d' := by
  refine ⟨?_, fun hc => by subst hc; revert h; decide,
    fun hc => by subst hc; revert h; decide,
    fun hc => by subst hc; revert h; decide,
    fun hc => by subst hc; revert h; decide,
    fun hc => by subst hc; revert h; decide,
    fun hc => by subst hc; revert h; decide⟩
  have hs : c ≠ ' ' := fun hc => by subst hc; revert h; decide
  have ht : c ≠ '\t' := fun hc => by subst hc; revert h; decide
  have hn : c ≠ '\n' := fun hc => by subst hc; revert h; decide
  have hr : c ≠ '\r' := fun hc => by subst hc; revert h; decide
  simp [jsonWsChar, hs, ht, hn, hr]

theorem encodeJson_head (v : Json) :
    ∃ c cs, encodeJson v = c :: cs ∧ jsonWsChar c = false ∧
      c ≠ ']' ∧ c ≠ '\x7d' := by
  cases v with
  | bool b => cases b
              · exact ⟨'f', _, rfl, by decide⟩
              · exact ⟨'t', _, rfl, by decide⟩
  | null => exact ⟨'n', _, rfl, by decide⟩
  | num n =>
    cases hn : natToChars n with
    | nil => exact absurd hn (natToChars_ne_nil n)
    | cons c cs =>
      have hd := natToChars_all_digits n c (by rw [hn]; exact List.mem_cons_self _ _)
      obtain ⟨hws, _, _, _, _, hbr, hbc⟩ := isDigitChar_facts hd
      exact ⟨c, cs, by simp [encodeJson, hn], hws, hbr, hbc⟩
  | str s => exact ⟨'"', _, rfl, by decide⟩
  | arr es => exact ⟨'[', _, rfl, by decide⟩
  | obj fs => exact ⟨'\x7b', _, rfl, by decide⟩

theorem parse_round (fuel : Nat) :
    (∀ v rest, Json.wf v = true → jsonFuel v ≤ fuel →
      (∀ c, rest.head? = some c → isDigitChar c = false) →
      parseValue fuel (encodeJson v ++ rest) = some (v, rest)) ∧
    (∀ es acc rest, wfElems es = true → es ≠ [] → fuelElems es ≤ fuel →
      parseElems fuel (encodeElems es ++ ']' :: rest) acc =
        some (.arr (acc ++ es), rest)) ∧
    (∀ fs acc rest, wfFields fs = true → fs ≠ [] → fuelFields fs ≤ fuel →
      parseFields fuel (encodeFields fs ++ '\x7d' :: rest) acc =
        some (.obj (acc ++ fs), rest)) := by
  induction fuel with
  | zero =>
    refine ⟨fun v rest _ hf _ => absurd hf ?_, fun es acc rest _ hne hf => absurd hf ?_,
      fun fs acc rest _ hne hf => absurd hf ?_⟩
    · have := jsonFuel_pos v; omega
    · have := fuelElems_pos hne; omega
    · have := fuelFields_pos hne; omega
  | succ fuel ih =>
    obtain ⟨ihA, ihB, ihC⟩ := ih
    refine ⟨fun v rest hwf hf hrest => ?_, fun es acc rest hwf hne hf => ?_,
      fun fs acc rest hwf hne hf => ?_⟩
    · -- parseValue reads back one encoded value
      cases v with
      | null =>
        show parseValue (fuel + 1) ('n' :: 'u' :: 'l' :: 'l' :: rest) = _
        rw [parseValue.eq_def]
        simp [skipWs, jsonWsChar]
      | bool b =>
        cases b with
        | true =>
          show parseValue (fuel + 1) ('t' :: 'r' :: 'u' :: 'e' :: rest) = _
          rw [parseValue.eq_def]
          simp [skipWs, jsonWsChar]
        | false =>
          show parseValue (fuel + 1) ('f' :: 'a' :: 'l' :: 's' :: 'e' :: rest) = _
          rw [parseValue.eq_def]
          simp [skipWs, jsonWsChar]
      | num n =>
        cases hn : natToChars n with
        | nil => exact absurd hn (natToChars_ne_nil n)
        | cons c cs =>
          have hd := natToChars_all_digits n c (by rw [hn]; exact List.mem_cons_self _ _)
          obtain ⟨hws, hcn, hct, hcf, hcq, _, _⟩ := isDigitChar_facts hd
          have hpn := parseNat_round n hrest
          rw [hn, List.cons_append] at hpn
          show parseValue (fuel + 1) (natToChars n ++ rest) = _
          rw [hn, List.cons_append, parseValue.eq_def]
          simp [skipWs_cons hws, hcn, hct, hcf, hcq, hd, hpn]
      | str s =>
        have hschars : ∀ c ∈ s, wfChar c = true := by
          have hh : Json.wf (.str s) = true := hwf
          simpa [Json.wf, List.all_eq_true] using hh
        show parseValue (fuel + 1) (encodeStr s ++ rest) = _
        rw [encodeStr]
        have hsb := parseStringBody_round hschars rest
        rw [parseValue.eq_def]
        simp only [List.cons_append, List.append_assoc, List.singleton_append]
        simp [skipWs, jsonWsChar, hsb]
      | arr es =>
        cases es with
        | nil =>
          show parseValue (fuel + 1) (('[' :: (encodeElems [] ++ [']'])) ++ rest) = _
          rw [parseValue.eq_def]
          simp [skipWs, jsonWsChar, encodeElems,
            show isDigitChar '[' = false from rfl]
        | cons e t =>
          obtain ⟨c1, cs1, henc, hews, hbr, _⟩ := encodeJson_head e
          obtain ⟨z, hzz⟩ : ∃ z, encodeElems (e :: t) = encodeJson e ++ z := by
            cases t with
            | nil => exact ⟨[], by simp [encodeElems]⟩
            | cons e' t' => exact ⟨_, rfl⟩
          have hfe : fuelElems (e :: t) ≤ fuel := by
            have hfx : jsonFuel (.arr (e :: t)) = 1 + fuelElems (e :: t) := rfl
            omega
          have hB := ihB (e :: t) [] rest hwf (by simp) hfe
          have hform : ('[' :: (encodeElems (e :: t) ++ [']'])) ++ rest =
              '[' :: (encodeElems (e :: t) ++ ']' :: rest) := by simp
          show parseValue (fuel + 1) (('[' :: (encodeElems (e :: t) ++ [']'])) ++ rest) = _
          rw [hform, parseValue.eq_def]
          rw [hzz, henc] at hB ⊢
          simp only [List.cons_append, List.append_assoc] at hB ⊢
          simp [skipWs_cons (c := '[') (by decide), skipWs_cons hews, hbr, hB,
            show isDigitChar '[' = false from rfl]
      | obj fs =>
        cases fs with
        | nil =>
          show parseValue (fuel + 1) (('\x7b' :: (encodeFields [] ++ ['\x7d'])) ++ rest) = _
          rw [parseValue.eq_def]
          simp [skipWs, jsonWsChar, encodeFields,
            show isDigitChar '\x7b' = false from rfl]
        | cons kv t =>
          obtain ⟨k, v⟩ := kv
          obtain ⟨z, hzz⟩ : ∃ z,
              encodeFields ((k, v) :: t) = '"' :: (k.flatMap escapeJsonChar ++ '"' :: z) := by
            cases t with
            | nil =>
              refine ⟨':' :: encodeJson v, ?_⟩
              show encodeStr k ++ ':' :: encodeJson v = _
              rw [encodeStr]
              simp
            | cons kv' t' =>
              refine ⟨':' :: (encodeJson v ++ ',' :: encodeFields (kv' :: t')), ?_⟩
              show encodeStr k ++ ':' :: encodeJson v ++ ',' :: encodeFields (kv' :: t') = _
              rw [encodeStr]
              simp
          have hff : fuelFields ((k, v) :: t) ≤ fuel := by
            have hfx : jsonFuel (.obj ((k, v) :: t)) = 1 + fuelFields ((k, v) :: t) := rfl
            omega
          have hC := ihC ((k, v) :: t) [] rest hwf (by simp) hff
          have hform : ('\x7b' :: (encodeFields ((k, v) :: t) ++ ['\x7d'])) ++ rest =
              '\x7b' :: (encodeFields ((k, v) :: t) ++ '\x7d' :: rest) := by simp
          show parseValue (fuel + 1)
            (('\x7b' :: (encodeFields ((k, v) :: t) ++ ['\x7d'])) ++ rest) = _
          rw [hform, parseValue.eq_def]
          rw [hzz] at hC ⊢
          simp only [List.cons_append, List.append_assoc] at hC ⊢
          simp [skipWs, jsonWsChar, hC,
            show isDigitChar '\x7b' = false from rfl]
    · -- parseElems reads back an encoded element list
      cases es with
      | nil => exact absurd rfl hne
      | cons e t =>
        obtain ⟨hwe, hwt⟩ : e.wf = true ∧ wfElems t = true := by
          simpa [wfElems, Bool.and_eq_true] using hwf
        have hfe : jsonFuel e ≤ fuel := by simp only [fuelElems] at hf; omega
        cases t with
        | nil =>
          have hA := ihA e (']' :: rest) hwe hfe
            (fun c hc => by simp at hc; subst hc; rfl)
          show parseElems (fuel + 1) (encodeJson e ++ ']' :: rest) acc = _
          rw [parseElems.eq_def]
          simp [hA, skipWs, jsonWsChar]
        | cons e' t' =>
          have hA := ihA e (',' :: (encodeElems (e' :: t') ++ ']' :: rest)) hwe hfe
            (fun c hc => by simp at hc; subst hc; rfl)
          have hf' : fuelElems (e' :: t') ≤ fuel := by
            simp only [fuelElems] at hf ⊢
            omega
          have hB := ihB (e' :: t') (acc ++ [e]) rest hwt (by simp) hf'
          show parseElems (fuel + 1)
            ((encodeJson e ++ ',' :: encodeElems (e' :: t')) ++ ']' :: rest) acc = _
          rw [List.append_assoc, List.cons_append, parseElems.eq_def]
          simp [hA, skipWs, jsonWsChar, hB]
    · -- parseFields reads back an encoded field list
      cases fs with
      | nil => exact absurd rfl hne
      | cons kv t =>
        obtain ⟨k, v⟩ := kv
        obtain ⟨hwk, hwv, hwt⟩ :
            k.all wfChar = true ∧ v.wf = true ∧ wfFields t = true := by
          simpa [wfFields, Bool.and_eq_true, and_assoc] using hwf
        have hkchars : ∀ c ∈ k, wfChar c = true := List.all_eq_true.1 hwk
        have hfv : jsonFuel v ≤ fuel := by simp only [fuelFields] at hf; omega
        cases t with
        | nil =>
          have hA := ihA v ('\x7d' :: rest) hwv hfv
            (fun c hc => by simp at hc; subst hc; rfl)
          have hsb := parseStringBody_round hkchars (':' :: (encodeJson v ++ '\x7d' :: rest))
          show parseFields (fuel + 1)
            ((encodeStr k ++ ':' :: encodeJson v) ++ '\x7d' :: rest) acc = _
          rw [encodeStr, parseFields.eq_def]
          simp only [List.cons_append, List.append_assoc, List.singleton_append]
          simp [skipWs, jsonWsChar, hsb, hA]
        | cons kv' t' =>
          have hA := ihA v
            (',' :: (encodeFields (kv' :: t') ++ '\x7d' :: rest)) hwv hfv
            (fun c hc => by simp at hc; subst hc; rfl)
          have hsb := parseStringBody_round hkchars
            (':' :: (encodeJson v ++ ',' :: (encodeFields (kv' :: t') ++ '\x7d' :: rest)))
          have hf' : fuelFields (kv' :: t') ≤ fuel := by
            simp only [fuelFields] at hf ⊢
            omega
          have hC := ihC (kv' :: t') (acc ++ [(k, v)]) rest hwt (by simp) hf'
          show parseFields (fuel + 1)
            ((encodeStr k ++ ':' :: encodeJson v ++ ',' :: encodeFields (kv' :: t'))
              ++ '\x7d' :: rest) acc = _
          rw [encodeStr, parseFields.eq_def]
          simp only [List.cons_append, List.append_assoc, List.singleton_append]
          simp [skipWs, jsonWsChar, hsb, hA, hC]

/-- Printing any well-formed JSON value and parsing it back is the
identity. -/
theorem jsonParse_encodeJson (v : Json) (h : Json.wf v = true) :
    jsonParse (encodeJson v) = some v := by
  have hA := (parse_round (2 * (encodeJson v).length + 2)).1 v [] h
    (le_trans (jsonFuel_le_encode v) (by omega)) (fun c hc => by simp at hc)
  rw [List.append_nil] at hA
  rw [jsonParse, hA]
  simp [skipWs]

/-! ## `analyzeContract` (src/lib/api.ts lines 73-144) -/

structure ApiError where
  message : List Char
  status : Nat
deriving DecidableEq, Repr

/-- JS property access (`data.analysis`) on a parsed JSON value:
`none` is `undefined`; duplicate keys resolve to the last occurrence. -/
def jsonGet (j : Json) (key : List Char) : Option Json :=
  match j with
  | .obj fs => (fs.reverse.find? (fun kv => kv.1 = key)).map (fun kv => kv.2)
  | _ => none

/-- The response-body handling of `analyzeContract` after a 2xx response
(src/lib/api.ts lines 111-129): read `data.analysis`, run a second
`JSON.parse` pass when it is a string — surfacing a typed 500 on an inner
parse failure — then validate that the result is a (truthy) object. -/
def handleAnalysisBody (data : Json) : Except ApiError Json :=
  let analysis := jsonGet data "analysis".toList
  let reparsed : Except ApiError (Option Json) :=
    match analysis with
    | some (.str s) =>
      match jsonParse s with
      | some v => .ok (some v)
      | none => .error ⟨"Invalid response format from server".toList, 500⟩
    | other => .ok other
  match reparsed with
  | .error e => .error e
  | .ok a =>
    match a with
    | some (.obj fs) => .ok (.obj fs)
    | some (.arr es) => .ok (.arr es)
    | _ => .error ⟨"Invalid analysis result structure".toList, 500⟩

/-- `analyzeContract`'s input: a plain-text source or a `File`. -/
inductive AnalyzeInput
  | text (s : List Char)
  | file (name : List Char) (size : Nat)

/-- The pre-flight validation of `analyzeContract` (src/lib/api.ts lines
76-89), run before any `fetch`. -/
def analyzeValidate : AnalyzeInput → Option ApiError
  | .text s =>
    if jsTrim s = [] then some ⟨"Contract text cannot be empty".toList, 400⟩
    else none
  | .file _ size =>
    if size = 0 then some ⟨"Uploaded file is empty".toList, 400⟩
    else if size > 10 * 1024 * 1024 then
      some ⟨"File size exceeds 10MB limit".toList, 400⟩
    else none

/-- `analyzeContract`, with the network modelled by the backend's JSON
response body; the boolean records whether the request was issued. -/
def analyzeContract (input : AnalyzeInput) (responseBody : Json) :
    Except ApiError Json × Bool :=
  match analyzeValidate input with
  | some e => (.error e, false)
  | none => (handleAnalysisBody responseBody, true)

/-- C4: `analyzeContract` on a double-encoded body `{analysis: S}` (with
`S` the JSON string encoding of an object) returns the same result as on
the direct `{analysis: O}`; and an unparseable inner string yields the
typed malformed-response error, not a crash. -/
theorem analyzeContract_parse_depth :
    (∀ (input : AnalyzeInput) (fs : List (List Char × Json)),
      analyzeValidate input = none → Json.wf (.obj fs) = true →
      analyzeContract input
          (.obj [("analysis".toList, .str (encodeJson (.obj fs)))]) =
        analyzeContract input (.obj [("analysis".toList, .obj fs)])) ∧
    (∀ (input : AnalyzeInput) (s : List Char),
      analyzeValidate input = none → jsonParse s = none →
      analyzeContract input (.obj [("analysis".toList, .str s)]) =
        (.error ⟨"Invalid response format from server".toList, 500⟩, true)) := by
  constructor
  · intro input fs hval hwf
    rw [analyzeContract, analyzeContract, hval]
    have hrt := jsonParse_encodeJson (.obj fs) hwf
    simp [handleAnalysisBody, jsonGet, hrt]
  · intro input s hval hparse
    rw [analyzeContract, hval]
    simp [handleAnalysisBody, jsonGet, hparse]

/-- C5: the 10 MiB boundary and the emptiness checks of `analyzeContract`
happen before any network request: exactly 10 MiB passes, one byte more
is rejected with the invalid-input error and no request, an empty file and
a trim-empty text source are likewise rejected without a request. -/
theorem analyzeContract_size_gate (name : List Char) (body : Json) :
    analyzeContract (.file name (10 * 1024 * 1024)) body =
      (handleAnalysisBody body, true) ∧
    analyzeContract (.file name (10 * 1024 * 1024 + 1)) body =
      (.error ⟨"File size exceeds 10MB limit".toList, 400⟩, false) ∧
    analyzeContract (.file name 0) body =
      (.error ⟨"Uploaded file is empty".toList, 400⟩, false) ∧
    (∀ s, jsTrim s = [] →
      analyzeContract (.text s) body =
        (.error ⟨"Contract text cannot be empty".toList, 400⟩, false)) := by
  refine ⟨?_, ?_, ?_, fun s hs => ?_⟩
  · rw [analyzeContract]
    norm_num [analyzeValidate]
  · rw [analyzeContract]
    norm_num [analyzeValidate]
  · rw [analyzeContract]
    norm_num [analyzeValidate]
  · rw [analyzeContract]
    simp [analyzeValidate, hs]

/-! ## Negotiation page (src/app/negotiation/page.tsx) -/

inductive Role
  | user
  | agent
deriving DecidableEq, Repr

structure ChatMessage where
  role : Role
  text : List Char
deriving DecidableEq, Repr

inductive Tab
  | clauses
  | contract
  | copilot
deriving DecidableEq, Repr

inductive RiskLevel
  | high
  | medium
  | low
deriving DecidableEq, Repr

structure ClauseItem where
  id : List Char
  title : List Char
  text : List Char
  original_text : List Char
  riskLevel : RiskLevel
deriving DecidableEq, Repr

/-- The local state the streaming loop of `processNegotiation` reads and
writes: the two React states it sets (`messages`, `contractText`,
`activeTab`) plus its four local variables. -/
structure StreamSt where
  messages : List ChatMessage
  contractText : List Char
  activeTab : Tab
  agentResponse : List Char
  fullProposedEdit : List Char
  isEditMode : Bool
  hasShownMessage : Bool
deriving DecidableEq, Repr

mutual

/-- JS string coercion, as `+=` applies it to `data.content`. -/
def jsCoerce : Json → List Char
  | .null => "null".toList
  | .bool true => "true".toList
  | .bool false => "false".toList
  | .num n => natToChars n
  | .str s => s
  | .arr es => jsCoerceItems es
  | .obj _ => "[object Object]".toList

def jsCoerceItems : List Json → List Char
  | [] => []
  | [.null] => []
  | [e] => jsCoerce e
  | .null :: rest => ',' :: jsCoerceItems rest
  | e :: rest => jsCoerce e ++ ',' :: jsCoerceItems rest

end

/-- `data.content` as the `+=` concatenations see it (`undefined` when
the field is missing). -/
def contentOf (data : Json) : List Char :=
  match jsonGet data "content".toList with
  | some j => jsCoerce j
  | none => "undefined".toList

/-- `data.type === '…'`: strict equality against a string literal. -/
def typeIs (data : Json) (t : List Char) : Bool :=
  match jsonGet data "type".toList with
  | some (.str s) => s = t
  | _ => false

/-- The `setMessages` updater of the `text_delta` branch: write the
running agent response into the last message if it is an agent message,
else append a new agent message. -/
def pushDelta (prev : List ChatMessage) (agentResponse : List Char) :
    List ChatMessage :=
  match prev.getLast? with
  | some m =>
    if m.role = .agent then prev.dropLast ++ [⟨.agent, agentResponse⟩]
    else prev ++ [⟨.agent, agentResponse⟩]
  | none => prev ++ [⟨.agent, agentResponse⟩]

/-- The event dispatch of `processNegotiation`'s loop body
(src/app/negotiation/page.tsx lines 210-241). -/
def applyData (st : StreamSt) (data : Json) : StreamSt :=
  if typeIs data "strategy".toList then st
  else if typeIs data "text_delta".toList then
    let agentResponse := st.agentResponse ++ contentOf data
    { st with agentResponse := agentResponse
              messages := pushDelta st.messages agentResponse }
  else if typeIs data "edit_start".toList then
    let st1 :=
      if !st.hasShownMessage then
        { st with hasShownMessage := true, activeTab := .contract }
      else st
    { st1 with isEditMode := true, fullProposedEdit := [] }
  else if typeIs data "edit_delta".toList && st.isEditMode then
    let fullProposedEdit := st.fullProposedEdit ++ contentOf data
    { st with fullProposedEdit := fullProposedEdit, contractText := fullProposedEdit }
  else if typeIs data "done".toList then
    { st with isEditMode := false }
  else st

/-- One line of the stream: `JSON.parse` it and dispatch; a parse error
is logged and the line skipped. -/
def processLine (st : StreamSt) (line : List Char) : StreamSt :=
  match jsonParse line with
  | some data => applyData st data
  | none => st

/-- One network read: `chunk.split('\n').filter(l => l.trim())`, each
kept line processed in order.  Note the split is per chunk — there is no
carry of a partial trailing line to the next read. -/
def processChunk (st : StreamSt) (chunk : List Char) : StreamSt :=
  ((splitOnChar '\n' chunk).filter (fun l => !(jsTrim l).isEmpty)).foldl processLine st

/-- The whole `while` loop of `processNegotiation` over the sequence of
network reads, starting from fresh local variables. -/
def runTurn (chunks : List (List Char)) (messages : List ChatMessage)
    (contractText : List Char) (activeTab : Tab) : StreamSt :=
  chunks.foldl processChunk
    { messages := messages, contractText := contractText, activeTab := activeTab,
      agentResponse := [], fullProposedEdit := [], isEditMode := false,
      hasShownMessage := false }

/-- The page state the clause-orchestration handlers touch. -/
structure PageState where
  contractText : List Char
  clauses : List ClauseItem
  selectedClauseIds : List (List Char)
  messages : List ChatMessage
  announcedClauses : List (List Char)
  activeTab : Tab
  storeFlags : List FlagWithText
deriving DecidableEq, Repr

/-- The transport of one negotiation turn: a streamed 2xx body, or a
failure (`negotiateChat` throwing / a missing response body), carrying
the message `handleError` produces. -/
inductive TurnTransport
  | stream (chunks : List (List Char))
  | failure (errorMsg : List Char)

/-- `processNegotiation` (lines 174-257): run the stream loop, or on any
error append a single agent error message; it never rethrows. -/
def processNegotiation (st : PageState) (transport : TurnTransport) : PageState :=
  match transport with
  | .stream chunks =>
    let s := runTurn chunks st.messages st.contractText st.activeTab
    { st with
      messages := s.messages
      contractText := s.contractText
      activeTab := s.activeTab }
  | .failure errorMsg =>
    { st with messages := st.messages ++
        [⟨.agent, "❌ ".toList ++ errorMsg ++
          " \n\nPlease try again or rephrase your request.".toList⟩] }

/-- `processClause` (lines 132-151): after `processNegotiation` resolves
(it always resolves), unconditionally remove the clause from selection,
clause list, store and announcement tracking. -/
def processClause (st : PageState) (clauseId : List Char)
    (transport : TurnTransport) : PageState :=
  match st.clauses.find? (fun c => c.id = clauseId) with
  | none => st
  | some _ =>
    let st' := processNegotiation st transport
    { st' with
      selectedClauseIds := st'.selectedClauseIds.filter (fun id => id ≠ clauseId)
      clauses := st'.clauses.filter (fun c => c.id ≠ clauseId)
      storeFlags := st'.storeFlags.filter (fun f => f.id ≠ clauseId)
      announcedClauses := st'.announcedClauses.filter (fun id => id ≠ clauseId) }

/-- `processAllClauses` (lines 154-171). -/
def processAllClauses (st : PageState) (transport : TurnTransport) : PageState :=
  let selectedClauses := st.clauses.filter (fun c => st.selectedClauseIds.contains c.id)
  if selectedClauses.isEmpty then st
  else
    let st' := processNegotiation st transport
    { st' with
      clauses := st'.clauses.filter (fun c => !st.selectedClauseIds.contains c.id)
      storeFlags := st.selectedClauseIds.foldl
        (fun fl id => fl.filter (fun f => f.id ≠ id)) st'.storeFlags
      announcedClauses := st.selectedClauseIds.foldl
        (fun ann id => ann.filter (fun a => a ≠ id)) st'.announcedClauses
      selectedClauseIds := [] }

/-- The chat announcement `📌 Selected: ${clause.title} `. -/
def selectionMessage (title : List Char) : List Char :=
  "📌 Selected: ".toList ++ title ++ [' ']

/-- `toggleClauseSelection` (lines 95-129). -/
def toggleClauseSelection (st : PageState) (clauseId : List Char) : PageState :=
  if st.selectedClauseIds.contains clauseId then
    let announced := st.announcedClauses.filter (fun id => id ≠ clauseId)
    let messages :=
      match st.clauses.find? (fun c => c.id = clauseId) with
      | some clause =>
        st.messages.filter (fun m => m.text ≠ selectionMessage clause.title)
      | none => st.messages
    { st with
      announcedClauses := announced
      messages := messages
      selectedClauseIds := st.selectedClauseIds.filter (fun id => id ≠ clauseId) }
  else
    if !st.announcedClauses.contains clauseId then
      match st.clauses.find? (fun c => c.id = clauseId) with
      | some clause =>
        { st with
          announcedClauses := st.announcedClauses ++ [clauseId]
          messages := st.messages ++ [⟨.user, selectionMessage clause.title⟩]
          selectedClauseIds := st.selectedClauseIds ++ [clauseId] }
      | none => { st with selectedClauseIds := st.selectedClauseIds ++ [clauseId] }
    else { st with selectedClauseIds := st.selectedClauseIds ++ [clauseId] }

/-! ### Generic behavior of one event, given its decoded type -/

theorem eq_false_ne_true {b : Bool} (h : b = false) : ¬(b = true) := by
  rw [h]
  exact Bool.false_ne_true

theorem pushDelta_of_last_not_agent {msgs : List ChatMessage}
    (h : ∀ m, msgs.getLast? = some m → m.role ≠ .agent) (t : List Char) :
    pushDelta msgs t = msgs ++ [⟨.agent, t⟩] := by
  cases hm : msgs.getLast? with
  | none => rw [pushDelta, hm]
  | some m =>
    rw [pushDelta]
    simp only [hm]
    rw [if_neg (h m hm)]

theorem pushDelta_concat_agent (msgs : List ChatMessage) (t t' : List Char) :
    pushDelta (msgs ++ [⟨.agent, t⟩]) t' = msgs ++ [⟨.agent, t'⟩] := by
  rw [pushDelta, List.getLast?_concat]
  simp [List.dropLast_concat]

theorem applyData_text_delta (st : StreamSt) (data : Json) (content : List Char)
    (h1 : typeIs data "strategy".toList = false)
    (h2 : typeIs data "text_delta".toList = true)
    (h3 : contentOf data = content) :
    applyData st data =
      { st with agentResponse := st.agentResponse ++ content
                messages := pushDelta st.messages (st.agentResponse ++ content) } := by
  rw [applyData, if_neg (eq_false_ne_true h1), if_pos h2]
  simp only [h3]

theorem applyData_edit_start (st : StreamSt) (data : Json)
    (h1 : typeIs data "strategy".toList = false)
    (h2 : typeIs data "text_delta".toList = false)
    (h3 : typeIs data "edit_start".toList = true) :
    applyData st data =
      { st with
        hasShownMessage := true
        activeTab := if st.hasShownMessage then st.activeTab else .contract
        isEditMode := true
        fullProposedEdit := [] } := by
  rw [applyData, if_neg (eq_false_ne_true h1), if_neg (eq_false_ne_true h2), if_pos h3]
  cases hs : st.hasShownMessage with
  | false => simp [hs]
  | true => simp [hs]

theorem applyData_edit_delta (st : StreamSt) (data : Json) (content : List Char)
    (h1 : typeIs data "strategy".toList = false)
    (h2 : typeIs data "text_delta".toList = false)
    (h3 : typeIs data "edit_start".toList = false)
    (h4 : typeIs data "edit_delta".toList = true)
    (h5 : contentOf data = content)
    (hmode : st.isEditMode = true) :
    applyData st data =
      { st with fullProposedEdit := st.fullProposedEdit ++ content
                contractText := st.fullProposedEdit ++ content } := by
  rw [applyData, if_neg (eq_false_ne_true h1), if_neg (eq_false_ne_true h2), if_neg (eq_false_ne_true h3),
    if_pos (show (typeIs data "edit_delta".toList && st.isEditMode) = true by
      rw [h4, hmode]; rfl)]
  simp only [h5]

theorem applyData_done (st : StreamSt) (data : Json)
    (h1 : typeIs data "strategy".toList = false)
    (h2 : typeIs data "text_delta".toList = false)
    (h3 : typeIs data "edit_start".toList = false)
    (h4 : typeIs data "edit_delta".toList = false)
    (h5 : typeIs data "done".toList = true) :
    applyData st data = { st with isEditMode := false } := by
  rw [applyData, if_neg (eq_false_ne_true h1), if_neg (eq_false_ne_true h2), if_neg (eq_false_ne_true h3),
    if_neg (eq_false_ne_true (by rw [h4]; rfl)), if_pos h5]

/-- A read that carries exactly one decodable line is one dispatch. -/
theorem processChunk_single (st : StreamSt) (chunk line : List Char) (data : Json)
    (hsplit : (splitOnChar '\n' chunk).filter (fun l => !(jsTrim l).isEmpty) = [line])
    (hparse : jsonParse line = some data) :
    processChunk st chunk = applyData st data := by
  rw [processChunk, hsplit]
  show processLine st line = _
  rw [processLine, hparse]

/-! ### C3: the canonical six-event turn -/

def c3c1 : List Char := "\x7b\"type\":\"text_delta\",\"content\":\"A\"\x7d\n".toList
def c3c2 : List Char := "\x7b\"type\":\"text_delta\",\"content\":\"B\"\x7d\n".toList
def c3c3 : List Char := "\x7b\"type\":\"edit_start\"\x7d\n".toList
def c3c4 : List Char := "\x7b\"type\":\"edit_delta\",\"content\":\"X\"\x7d\n".toList
def c3c5 : List Char := "\x7b\"type\":\"edit_delta\",\"content\":\"Y\"\x7d\n".toList
def c3c6 : List Char := "\x7b\"type\":\"done\"\x7d\n".toList

def c3l1 : List Char := "\x7b\"type\":\"text_delta\",\"content\":\"A\"\x7d".toList
def c3l2 : List Char := "\x7b\"type\":\"text_delta\",\"content\":\"B\"\x7d".toList
def c3l3 : List Char := "\x7b\"type\":\"edit_start\"\x7d".toList
def c3l4 : List Char := "\x7b\"type\":\"edit_delta\",\"content\":\"X\"\x7d".toList
def c3l5 : List Char := "\x7b\"type\":\"edit_delta\",\"content\":\"Y\"\x7d".toList
def c3l6 : List Char := "\x7b\"type\":\"done\"\x7d".toList

def c3d1 : Json :=
  .obj [("type".toList, .str "text_delta".toList), ("content".toList, .str ['A'])]
def c3d2 : Json :=
  .obj [("type".toList, .str "text_delta".toList), ("content".toList, .str ['B'])]
def c3d3 : Json := .obj [("type".toList, .str "edit_start".toList)]
def c3d4 : Json :=
  .obj [("type".toList, .str "edit_delta".toList), ("content".toList, .str ['X'])]
def c3d5 : Json :=
  .obj [("type".toList, .str "edit_delta".toList), ("content".toList, .str ['Y'])]
def c3d6 : Json := .obj [("type".toList, .str "done".toList)]

/-- The spec's reference event sequence, one whole line per read. -/
def c3Events : List (List Char) := [c3c1, c3c2, c3c3, c3c4, c3c5, c3c6]

/-- C3: from a transcript not ending in an agent message, the six events
`text_delta "A"`, `text_delta "B"`, `edit_start`, `edit_delta "X"`,
`edit_delta "Y"`, `done` leave exactly one new agent message "AB"
(deltas coalesce), document buffer "XY" (reset, append, full
replacement), and a non-editing final state. -/
theorem runTurn_c3 (messages : List ChatMessage) (contractText : List Char)
    (tab : Tab) (hlast : ∀ m, messages.getLast? = some m → m.role ≠ .agent) :
    (runTurn c3Events messages contractText tab).messages =
      messages ++ [⟨.agent, "AB".toList⟩] ∧
    (runTurn c3Events messages contractText tab).contractText = "XY".toList ∧
    (runTurn c3Events messages contractText tab).isEditMode = false := by
  rw [runTurn]
  simp only [c3Events, List.foldl_cons, List.foldl_nil]
  rw [processChunk_single _ c3c1 c3l1 c3d1 rfl rfl,
    applyData_text_delta _ c3d1 ['A'] rfl rfl rfl]
  simp only [List.nil_append]
  rw [pushDelta_of_last_not_agent hlast]
  rw [processChunk_single _ c3c2 c3l2 c3d2 rfl rfl,
    applyData_text_delta _ c3d2 ['B'] rfl rfl rfl]
  simp only []
  rw [show (['A'] ++ ['B'] : List Char) = 'A' :: 'B' :: [] from rfl]
  rw [pushDelta_concat_agent]
  rw [processChunk_single _ c3c3 c3l3 c3d3 rfl rfl,
    applyData_edit_start _ c3d3 rfl rfl rfl]
  rw [processChunk_single _ c3c4 c3l4 c3d4 rfl rfl,
    applyData_edit_delta _ c3d4 ['X'] rfl rfl rfl rfl rfl rfl]
  simp only [List.nil_append]
  rw [processChunk_single _ c3c5 c3l5 c3d5 rfl rfl,
    applyData_edit_delta _ c3d5 ['Y'] rfl rfl rfl rfl rfl rfl]
  rw [processChunk_single _ c3c6 c3l6 c3d6 rfl rfl,
    applyData_done _ c3d6 rfl rfl rfl rfl rfl]
  refine ⟨rfl, rfl, rfl⟩

/-- Closed instance of C3's turn from a transcript ending in a user
message. -/
theorem runTurn_c3_witness :
    (runTurn c3Events [⟨.user, ['h']⟩] [] .clauses).messages =
      [⟨.user, ['h']⟩] ++ [⟨.agent, "AB".toList⟩] :=
  (runTurn_c3 [⟨.user, ['h']⟩] [] .clauses (fun m hm => by
    simp at hm
    rw [← hm]
    decide)).1

/-! ### C1: a line split across two reads is dropped, not reassembled -/

def c1ChunkA : List Char := "\x7b\"type\":\"text_de".toList
def c1ChunkB : List Char := "lta\",\"content\":\"A\"\x7d\n".toList

/-- C1 (code bug): each network read is split on `\n` independently and
no partial trailing line is carried to the next read.  Delivering the
single event `\x7b"type":"text_delta","content":"A"\x7d\n` split inside
the line leaves the transcript empty — both fragments fail `JSON.parse`
and are dropped — while the same bytes in one read append the agent
message "A". -/
theorem runTurn_split_line_dropped :
    (runTurn [c1ChunkA, c1ChunkB] [] [] .clauses).messages = [] ∧
    (runTurn [c1ChunkA ++ c1ChunkB] [] [] .clauses).messages =
      [⟨.agent, ['A']⟩] ∧
    runTurn [c1ChunkA, c1ChunkB] [] [] .clauses ≠
      runTurn [c1ChunkA ++ c1ChunkB] [] [] .clauses :=
  ⟨rfl, rfl, by decide⟩

/-! ### C2: clause removal after a turn is unconditional -/

/-- `processNegotiation` only ever writes the chat, document and tab
state: clause list, selection, store flags and announcement tracking are
untouched by the turn itself. -/
theorem processNegotiation_frame (st : PageState) (t : TurnTransport) :
    (processNegotiation st t).clauses = st.clauses ∧
    (processNegotiation st t).selectedClauseIds = st.selectedClauseIds ∧
    (processNegotiation st t).storeFlags = st.storeFlags ∧
    (processNegotiation st t).announcedClauses = st.announcedClauses := by
  cases t with
  | stream chunks => exact ⟨rfl, rfl, rfl, rfl⟩
  | failure errorMsg => exact ⟨rfl, rfl, rfl, rfl⟩

def c2Clause : ClauseItem :=
  { id := "red-0".toList, title := "Indemnity clause".toList,
    text := "t".toList, original_text := "o".toList, riskLevel := .high }

def c2Flag : FlagWithText :=
  { id := "red-0".toList, analysis := "t".toList,
    original_text := "o".toList, type := .red }

def c2State : PageState :=
  { contractText := [], clauses := [c2Clause],
    selectedClauseIds := ["red-0".toList], messages := [],
    announcedClauses := ["red-0".toList], activeTab := .clauses,
    storeFlags := [c2Flag] }

/-- C2 counterexample: a turn that fails outright (transport error — no
`done` event was observed) still removes the targeted clause from the
clause list, the store's flag list and the selection set, so the clause
cannot be retried from the list. -/
theorem processClause_failure_still_removes :
    (processClause c2State "red-0".toList
      (.failure "Negotiation failed".toList)).clauses = [] ∧
    (processClause c2State "red-0".toList
      (.failure "Negotiation failed".toList)).storeFlags = [] ∧
    (processClause c2State "red-0".toList
      (.failure "Negotiation failed".toList)).selectedClauseIds = [] :=
  ⟨rfl, rfl, rfl⟩

theorem mem_foldl_filter {α : Type} (key : α → List Char) (ids : List (List Char))
    (l : List α) (x : α)
    (hx : x ∈ ids.foldl (fun acc id => acc.filter (fun a => key a ≠ id)) l) :
    x ∈ l ∧ ∀ id ∈ ids, key x ≠ id := by
  induction ids generalizing l with
  | nil =>
    refine ⟨by simpa using hx, ?_⟩
    intro i hi
    simp at hi
  | cons id rest ih =>
    obtain ⟨hmem, hrest⟩ := ih (l.filter (fun a => key a ≠ id)) hx
    have hm := List.mem_filter.1 hmem
    refine ⟨hm.1, ?_⟩
    intro i hi
    rcases List.mem_cons.1 hi with hi | hi
    · subst hi
      simpa using hm.2
    · exact hrest i hi

/-- C2 amended: whenever a negotiation turn finishes — successfully,
without a `done` event, or with a transport failure — `processClause`
and `processAllClauses` remove the targeted clause ids from the live
clause list, the store's flag list and the selection set; the `done`
event is never consulted for removal, and a failed turn merely appends
an agent error message before the removal proceeds. -/
theorem processClause_removal_unconditional (st : PageState)
    (clauseId : List Char) (transport : TurnTransport)
    (hmem : ∃ c ∈ st.clauses, c.id = clauseId) :
    (∀ c ∈ (processClause st clauseId transport).clauses, c.id ≠ clauseId) ∧
    (∀ f ∈ (processClause st clauseId transport).storeFlags, f.id ≠ clauseId) ∧
    clauseId ∉ (processClause st clauseId transport).selectedClauseIds ∧
    (st.clauses.filter (fun c => st.selectedClauseIds.contains c.id) ≠ [] →
      (∀ c ∈ (processAllClauses st transport).clauses,
        st.selectedClauseIds.contains c.id = false) ∧
      (∀ f ∈ (processAllClauses st transport).storeFlags,
        f.id ∉ st.selectedClauseIds) ∧
      (processAllClauses st transport).selectedClauseIds = []) ∧
    (∀ errorMsg, (processNegotiation st (.failure errorMsg)).messages =
      st.messages ++ [⟨.agent, "❌ ".toList ++ errorMsg ++
        " \n\nPlease try again or rephrase your request.".toList⟩]) := by
  obtain ⟨c0, hc0, hcid⟩ := hmem
  have hfind : (st.clauses.find? (fun c => c.id = clauseId)).isSome :=
    List.find?_isSome.2 ⟨c0, hc0, by simp [hcid]⟩
  obtain ⟨cl, hcl⟩ := Option.isSome_iff_exists.1 hfind
  have hpc : processClause st clauseId transport =
      { processNegotiation st transport with
        selectedClauseIds := (processNegotiation st transport).selectedClauseIds.filter
          (fun id => id ≠ clauseId)
        clauses := (processNegotiation st transport).clauses.filter
          (fun c => c.id ≠ clauseId)
        storeFlags := (processNegotiation st transport).storeFlags.filter
          (fun f => f.id ≠ clauseId)
        announcedClauses := (processNegotiation st transport).announcedClauses.filter
          (fun id => id ≠ clauseId) } := by
    rw [processClause, hcl]
  refine ⟨?_, ?_, ?_, fun hsel => ⟨?_, ?_, ?_⟩, fun errorMsg => rfl⟩
  · intro c hc
    rw [hpc] at hc
    have := (List.mem_filter.1 hc).2
    simpa using this
  · intro f hf
    rw [hpc] at hf
    have := (List.mem_filter.1 hf).2
    simpa using this
  · intro hmemSel
    rw [hpc] at hmemSel
    have := (List.mem_filter.1 hmemSel).2
    simp at this
  · intro c hc
    rw [processAllClauses] at hc
    rw [if_neg (by simpa [List.isEmpty_iff] using hsel)] at hc
    have := (List.mem_filter.1 hc).2
    simpa using this
  · intro f hf
    rw [processAllClauses] at hf
    rw [if_neg (by simpa [List.isEmpty_iff] using hsel)] at hf
    intro hfid
    have := (mem_foldl_filter FlagWithText.id st.selectedClauseIds _ f hf).2
    exact this f.id hfid rfl
  · rw [processAllClauses, if_neg (by simpa [List.isEmpty_iff] using hsel)]

/-- Closed instance of the amended C2 statement at a concrete state and
a failing transport. -/
theorem processClause_removal_unconditional_witness :
    (processClause c2State "red-0".toList
      (.failure "Negotiation failed".toList)).clauses.all
        (fun c => c.id ≠ "red-0".toList) = true := by
  have h := (processClause_removal_unconditional c2State "red-0".toList
    (.failure "Negotiation failed".toList) ⟨c2Clause, by decide, rfl⟩).1
  exact List.all_eq_true.2 (fun c hc => by simpa using h c hc)

/-! ### C8: the single-announcement invariant of clause selection -/

theorem contains_eq_mem (l : List (List Char)) (b : List Char) :
    l.contains b = true ↔ b ∈ l := List.elem_iff

theorem contains_filter_self (l : List (List Char)) (a : List Char) :
    (l.filter (fun x => x ≠ a)).contains a = false := by
  cases hc : (l.filter (fun x => x ≠ a)).contains a
  · rfl
  · exfalso
    have hm := (List.mem_filter.1 ((contains_eq_mem _ _).1 hc)).2
    simp at hm

theorem contains_filter_ne {b a : List Char} (h : b ≠ a) (l : List (List Char)) :
    (l.filter (fun x => x ≠ a)).contains b = l.contains b := by
  cases hc : l.contains b
  · cases hc' : (l.filter (fun x => x ≠ a)).contains b
    · rfl
    · exfalso
      have hbmem := (List.mem_filter.1 ((contains_eq_mem _ _).1 hc')).1
      have := (contains_eq_mem l b).2 hbmem
      rw [hc] at this
      exact Bool.false_ne_true this
  · have hb := (contains_eq_mem l b).1 hc
    exact (contains_eq_mem _ _).2 (List.mem_filter.2 ⟨hb, by simp [h]⟩)

theorem contains_concat (l : List (List Char)) (a b : List Char) :
    (l ++ [a]).contains b = (l.contains b || (b == a)) := by
  induction l with
  | nil =>
    rw [List.nil_append, List.contains_cons]
    show (b == a || false) = (false || (b == a))
    rw [Bool.or_false, Bool.false_or]
  | cons x xs ih =>
    rw [List.cons_append, List.contains_cons, List.contains_cons, ih, Bool.or_assoc]

theorem countP_filter_of_imp {α : Type} (p q : α → Bool)
    (h : ∀ m, p m = true → q m = true) (l : List α) :
    (l.filter q).countP p = l.countP p := by
  induction l with
  | nil => rfl
  | cons m t ih =>
    cases hq : q m
    · rw [List.filter_cons_of_neg (by simp [hq]), ih, List.countP_cons]
      have hp : p m = false := by
        cases hp : p m
        · rfl
        · rw [h m hp] at hq
          exact absurd hq (by decide)
      simp [hp]
    · rw [List.filter_cons_of_pos hq, List.countP_cons, List.countP_cons, ih]

theorem selectionMessage_inj {t t' : List Char}
    (h : selectionMessage t = selectionMessage t') : t = t' := by
  rw [selectionMessage, selectionMessage] at h
  exact List.append_cancel_left (List.append_cancel_right h)

theorem find?_id_eq_of_nodup {clauses : List ClauseItem}
    (hids : (clauses.map ClauseItem.id).Nodup) {c0 : ClauseItem}
    (hc0 : c0 ∈ clauses) :
    clauses.find? (fun c => c.id = c0.id) = some c0 := by
  have hsome : (clauses.find? (fun c => c.id = c0.id)).isSome :=
    List.find?_isSome.2 ⟨c0, hc0, by simp⟩
  obtain ⟨c', hc'⟩ := Option.isSome_iff_exists.1 hsome
  have hmem := List.mem_of_find?_eq_some hc'
  have hpc := List.find?_some hc'
  have hcc : c' = c0 := List.inj_on_of_nodup_map hids hmem hc0 (by simpa using hpc)
  rw [hc', hcc]

/-- The state the negotiation page starts a session from. -/
def initialNegotiationState (clauses : List ClauseItem) : PageState :=
  { contractText := [], clauses := clauses, selectedClauseIds := [],
    messages := [], announcedClauses := [], activeTab := .clauses,
    storeFlags := [] }

def runToggles (clauses : List ClauseItem) (toggles : List (List Char)) : PageState :=
  toggles.foldl toggleClauseSelection (initialNegotiationState clauses)

/-- The selection/announcement coupling `toggleClauseSelection`
maintains: selection and the announced set agree, and each clause's
announcement text occurs in the transcript exactly when announced. -/
def SelInv (clauses : List ClauseItem) (st : PageState) : Prop :=
  st.clauses = clauses ∧
  (∀ c ∈ clauses,
    st.selectedClauseIds.contains c.id = st.announcedClauses.contains c.id) ∧
  (∀ c ∈ clauses,
    st.messages.countP (fun m => m.text = selectionMessage c.title) =
      if st.announcedClauses.contains c.id then 1 else 0)

theorem toggle_selected_flips (st : PageState) (clauseId : List Char) :
    (toggleClauseSelection st clauseId).selectedClauseIds.contains clauseId =
      !st.selectedClauseIds.contains clauseId := by
  rw [toggleClauseSelection]
  cases hsel : st.selectedClauseIds.contains clauseId
  · rw [if_neg (by simp)]
    cases hann : st.announcedClauses.contains clauseId
    · rw [if_pos (by simp)]
      cases hf : st.clauses.find? (fun c => c.id = clauseId)
      · simp only [hf]
        rw [contains_concat]
        simp
      · simp only [hf]
        rw [contains_concat]
        simp
    · rw [if_neg (by simp)]
      rw [contains_concat]
      simp
  · rw [if_pos rfl]
    rw [contains_filter_self]
    rfl

theorem toggle_SelInv {clauses : List ClauseItem}
    (hids : (clauses.map ClauseItem.id).Nodup)
    (htitles : (clauses.map ClauseItem.title).Nodup)
    {st : PageState} {clauseId : List Char}
    (hid : ∃ c ∈ clauses, c.id = clauseId)
    (hinv : SelInv clauses st) :
    SelInv clauses (toggleClauseSelection st clauseId) := by
  obtain ⟨hcl, hsa, hcount⟩ := hinv
  obtain ⟨c0, hc0, hc0id⟩ := hid
  subst hc0id
  have hfind : st.clauses.find? (fun c => c.id = c0.id) = some c0 := by
    rw [hcl]
    exact find?_id_eq_of_nodup hids hc0
  rw [toggleClauseSelection]
  cases hsel : st.selectedClauseIds.contains c0.id
  · -- selecting: not currently selected, hence (by the invariant) not announced
    have hann : st.announcedClauses.contains c0.id = false := by
      rw [← hsa c0 hc0]
      exact hsel
    rw [if_neg (by simp), if_pos (by rw [hann]; rfl), hfind]
    refine ⟨hcl, fun c hc => ?_, fun c hc => ?_⟩
    · show (st.selectedClauseIds ++ [c0.id]).contains c.id =
        (st.announcedClauses ++ [c0.id]).contains c.id
      rw [contains_concat, contains_concat, hsa c hc]
    · show (st.messages ++ [ChatMessage.mk .user (selectionMessage c0.title)]).countP
          (fun m => m.text = selectionMessage c.title) =
        if (st.announcedClauses ++ [c0.id]).contains c.id then 1 else 0
      rw [List.countP_append, hcount c hc, contains_concat]
      by_cases hcc : c = c0
      · subst hcc
        rw [hann]
        simp [List.countP_cons]
      · have hid_ne : c.id ≠ c0.id := fun h =>
          hcc (List.inj_on_of_nodup_map hids hc hc0 h)
        have htitle_ne : c.title ≠ c0.title := fun h =>
          hcc (List.inj_on_of_nodup_map htitles hc hc0 h)
        have hmsg_ne : ¬(selectionMessage c0.title = selectionMessage c.title) :=
          fun h => htitle_ne (selectionMessage_inj h).symm
        rw [show (c.id == c0.id) = false by simp [hid_ne], Bool.or_false]
        simp [List.countP_cons, hmsg_ne]
  · -- deselecting
    rw [if_pos rfl, hfind]
    refine ⟨hcl, fun c hc => ?_, fun c hc => ?_⟩
    · show (st.selectedClauseIds.filter (fun id => id ≠ c0.id)).contains c.id =
        (st.announcedClauses.filter (fun id => id ≠ c0.id)).contains c.id
      by_cases hcc : c.id = c0.id
      · rw [hcc, contains_filter_self, contains_filter_self]
      · rw [contains_filter_ne hcc, contains_filter_ne hcc, hsa c hc]
    · show (st.messages.filter
          (fun m => m.text ≠ selectionMessage c0.title)).countP
          (fun m => m.text = selectionMessage c.title) =
        if (st.announcedClauses.filter (fun id => id ≠ c0.id)).contains c.id
        then 1 else 0
      by_cases hcc : c = c0
      · subst hcc
        rw [contains_filter_self]
        have hz : (st.messages.filter
            (fun m => m.text ≠ selectionMessage c.title)).countP
            (fun m => m.text = selectionMessage c.title) = 0 := by
          refine List.countP_eq_zero.2 (fun m hm => ?_)
          have hq := (List.mem_filter.1 hm).2
          simp at hq
          simp [hq]
        rw [hz]
        rfl
      · have hid_ne : c.id ≠ c0.id := fun h =>
          hcc (List.inj_on_of_nodup_map hids hc hc0 h)
        have htitle_ne : c.title ≠ c0.title := fun h =>
          hcc (List.inj_on_of_nodup_map htitles hc hc0 h)
        have hmsg_ne : selectionMessage c.title ≠ selectionMessage c0.title :=
          fun h => htitle_ne (selectionMessage_inj h)
        have himp : ∀ m : ChatMessage,
            decide (m.text = selectionMessage c.title) = true →
            decide (m.text ≠ selectionMessage c0.title) = true := by
          intro m hm
          have hmt : m.text = selectionMessage c.title := by simpa using hm
          simp [hmt, hmsg_ne]
        rw [contains_filter_ne hid_ne,
          countP_filter_of_imp _ _ himp st.messages, hcount c hc]

theorem SelInv_initial (clauses : List ClauseItem) :
    SelInv clauses (initialNegotiationState clauses) :=
  ⟨rfl, fun _ _ => rfl, fun _ _ => rfl⟩

theorem SelInv_runToggles {clauses : List ClauseItem}
    (hids : (clauses.map ClauseItem.id).Nodup)
    (htitles : (clauses.map ClauseItem.title).Nodup) :
    ∀ (toggles : List (List Char)) (st : PageState),
      SelInv clauses st → (∀ id ∈ toggles, ∃ c ∈ clauses, c.id = id) →
      SelInv clauses (toggles.foldl toggleClauseSelection st)
  | [], _, hinv, _ => hinv
  | id :: rest, st, hinv, htog => by
    rw [List.foldl_cons]
    exact SelInv_runToggles hids htitles rest _
      (toggle_SelInv hids htitles (htog id (List.mem_cons_self _ _)) hinv)
      (fun i hi => htog i (List.mem_cons_of_mem _ hi))

/-- C8: starting from a fresh session, over any sequence of
select/deselect toggles on existing clauses (ids and titles distinct):
each clause's "Selected: …" announcement appears in the transcript
exactly once while it is selected and zero times otherwise (so never
more than once); deselecting removes the announcement; re-selecting
after a full deselect announces exactly once again. -/
theorem toggle_announcement_invariant (clauses : List ClauseItem)
    (toggles : List (List Char))
    (hids : (clauses.map ClauseItem.id).Nodup)
    (htitles : (clauses.map ClauseItem.title).Nodup)
    (htog : ∀ id ∈ toggles, ∃ c ∈ clauses, c.id = id) :
    (∀ c ∈ clauses,
      (runToggles clauses toggles).messages.countP
        (fun m => m.text = selectionMessage c.title) =
        if (runToggles clauses toggles).selectedClauseIds.contains c.id
        then 1 else 0) ∧
    (∀ c ∈ clauses,
      (runToggles clauses toggles).selectedClauseIds.contains c.id = true →
      (toggleClauseSelection (runToggles clauses toggles) c.id).messages.countP
        (fun m => m.text = selectionMessage c.title) = 0) ∧
    (∀ c ∈ clauses,
      (runToggles clauses toggles).selectedClauseIds.contains c.id = false →
      (toggleClauseSelection (runToggles clauses toggles) c.id).messages.countP
        (fun m => m.text = selectionMessage c.title) = 1) := by
  have hinv : SelInv clauses (runToggles clauses toggles) :=
    SelInv_runToggles hids htitles toggles _ (SelInv_initial clauses) htog
  obtain ⟨hcl, hsa, hcount⟩ := hinv
  refine ⟨fun c hc => ?_, fun c hc hsel => ?_, fun c hc hsel => ?_⟩
  · rw [hcount c hc, hsa c hc]
  · obtain ⟨_, hsa', hcount'⟩ :=
      toggle_SelInv hids htitles ⟨c, hc, rfl⟩ ⟨hcl, hsa, hcount⟩
    rw [hcount' c hc, ← hsa' c hc, toggle_selected_flips, hsel]
    rfl
  · obtain ⟨_, hsa', hcount'⟩ :=
      toggle_SelInv hids htitles ⟨c, hc, rfl⟩ ⟨hcl, hsa, hcount⟩
    rw [hcount' c hc, ← hsa' c hc, toggle_selected_flips, hsel]
    rfl

def c8Clause : ClauseItem :=
  { id := "yellow-0".toList, title := "Payment terms".toList,
    text := "p".toList, original_text := "q".toList, riskLevel := .medium }

/-- Closed instance of C8's invariant after a select toggle. -/
theorem toggle_announcement_invariant_witness :
    (runToggles [c8Clause] ["yellow-0".toList]).messages.countP
      (fun m => m.text = selectionMessage c8Clause.title) =
      if (runToggles [c8Clause]
        ["yellow-0".toList]).selectedClauseIds.contains c8Clause.id
      then 1 else 0 :=
  (toggle_announcement_invariant [c8Clause] ["yellow-0".toList]
    (by decide) (by decide) (by decide)).1 c8Clause (List.mem_cons_self _ _)



/-! ### C6: `createFlexiblePattern` anchor matching -/

/-- The metacharacter class of `text.replace(/[.*+?^$\x7b\x7d()|[\]\\]/g, '\\$&')`. -/
def isRegexMeta (c : Char) : Bool :=
  c = '.' || c = '*' || c = '+' || c = '?' || c = '^' || c = '$' || c = '\x7b' ||
  c = '\x7d' || c = '(' || c = ')' || c = '|' || c = '[' || c = ']' || c = '\\'

/-- `escaped = text.replace(/[.*+?^$\x7b\x7d()|[\]\\]/g, '\\$&')`. -/
def escapeRegex (text : List Char) : List Char :=
  text.flatMap (fun c => if isRegexMeta c then ['\\', c] else [c])

/-- `flexible = escaped.replace(/\s+/g, '\\s+')`: each maximal whitespace
run becomes the three characters `\s+`. -/
def wsSubst : List Char → Bool → List Char
  | [], _ => []
  | c :: rest, inRun =>
    if jsWs c then (if inRun then [] else ['\\', 's', '+']) ++ wsSubst rest true
    else c :: wsSubst rest false

/-- A token of the compiled pattern: a literal character, `\s+`, or a
bare `\s`. -/
inductive RTok
  | lit (c : Char)
  | wsPlus
  | wsOne
deriving DecidableEq, Repr

/-- Reading the regex source `new RegExp(flexible, 'i')` receives: a
backslash escapes the next character, `\s` is the whitespace class, and
`+` after `\s` is its quantifier.  (The sources this page builds never
contain an unescaped quantifier.) -/
def compileRx : List Char → List RTok
  | '\\' :: 's' :: '+' :: rest => .wsPlus :: compileRx rest
  | '\\' :: 's' :: rest => .wsOne :: compileRx rest
  | '\\' :: c :: rest => .lit c :: compileRx rest
  | ['\\'] => []
  | c :: rest => .lit c :: compileRx rest
  | [] => []

/-- `createFlexiblePattern` (src/app/negotiation/page.tsx lines
365-371), as the token list the produced case-insensitive regex denotes. -/
def createFlexiblePattern (text : List Char) : List RTok :=
  compileRx (wsSubst (escapeRegex text) false)

/-- Specification-side tokenization of the anchor text itself: every
character is a literal and every maximal whitespace run is one
one-or-more-whitespace wildcard. -/
def tokenizePattern : List Char → Bool → List RTok
  | [], _ => []
  | c :: rest, inRun =>
    if jsWs c then (if inRun then [] else [.wsPlus]) ++ tokenizePattern rest true
    else .lit c :: tokenizePattern rest false

/-- Matching semantics of the compiled pattern at one position:
literals compare case-insensitively (the `'i'` flag), `\s+` consumes a
maximal nonempty whitespace run (greedy; no following token of these
patterns matches whitespace, so no backtracking arises). -/
def rtMatchAt : List RTok → List Char → Option Nat
  | [], _ => some 0
  | .lit c :: toks, d :: rest =>
    if c.toLower = d.toLower then (rtMatchAt toks rest).map (· + 1) else none
  | .lit _ :: _, [] => none
  | .wsOne :: toks, d :: rest =>
    if jsWs d then (rtMatchAt toks rest).map (· + 1) else none
  | .wsOne :: _, [] => none
  | .wsPlus :: toks, s =>
    if (s.takeWhile jsWs).length = 0 then none
    else (rtMatchAt toks (s.drop (s.takeWhile jsWs).length)).map
      (· + (s.takeWhile jsWs).length)

/-- All positions (with match lengths) where the pattern matches; the
code's `contractText.match(pattern)` takes the first of these. -/
def allMatches (toks : List RTok) (doc : List Char) : List (Nat × Nat) :=
  (List.range (doc.length + 1)).filterMap
    (fun i => (rtMatchAt toks (doc.drop i)).map (fun len => (i, len)))

theorem escapeRegex_cons (c : Char) (rest : List Char) :
    escapeRegex (c :: rest) =
      (if isRegexMeta c then ['\\', c] else [c]) ++ escapeRegex rest := by
  rw [escapeRegex, escapeRegex, List.flatMap_cons]

theorem meta_not_ws {c : Char} (h : isRegexMeta c = true) : jsWs c = false := by
  simp only [isRegexMeta, Bool.or_eq_true, decide_eq_true_eq] at h
  rcases h with ((((((((((((h | h) | h) | h) | h) | h) | h) | h) | h) | h) | h) | h) | h) | h
  all_goals subst h
  all_goals decide

theorem meta_ne_s {c : Char} (h : isRegexMeta c = true) : c ≠ 's' := by
  intro hc
  subst hc
  exact absurd h (by decide)

theorem not_meta_ne_backslash {c : Char} (h : isRegexMeta c = false) : c ≠ '\\' := by
  intro hc
  subst hc
  exact absurd h (by decide)

/-- Escaping metacharacters and substituting whitespace runs yields
exactly the tokenization of the anchor text: literals for its
characters, one `\s+` per maximal whitespace run. -/
theorem compile_createFlexiblePattern :
    ∀ (t : List Char) (b : Bool),
      compileRx (wsSubst (escapeRegex t) b) = tokenizePattern t b := by
  intro t
  induction t with
  | nil => intro b; rfl
  | cons c rest ih =>
    intro b
    rw [escapeRegex_cons]
    by_cases hm : isRegexMeta c = true
    · have hw := meta_not_ws hm
      rw [if_pos hm, List.cons_append, List.singleton_append]
      rw [wsSubst, if_neg (by decide)]
      rw [wsSubst, if_neg (by simp [hw])]
      rw [show compileRx ('\\' :: c :: wsSubst (escapeRegex rest) false) =
          .lit c :: compileRx (wsSubst (escapeRegex rest) false) by
        simp [compileRx, meta_ne_s hm]]
      rw [tokenizePattern, if_neg (by simp [hw])]
      rw [ih false]
    · rw [if_neg hm, List.singleton_append]
      by_cases hw : jsWs c = true
      · rw [wsSubst, if_pos hw, tokenizePattern, if_pos hw]
        cases b with
        | false =>
          rw [show ((if false = true then [] else ['\\', 's', '+']) : List Char) =
            ['\\', 's', '+'] from rfl]
          rw [show ∀ z : List Char, ['\\', 's', '+'] ++ z = '\\' :: 's' :: '+' :: z
            from fun z => rfl]
          rw [show ∀ z, compileRx ('\\' :: 's' :: '+' :: z) = .wsPlus :: compileRx z
            from fun z => by simp [compileRx]]
          rw [ih true]
          rfl
        | true =>
          rw [show ((if true = true then [] else ['\\', 's', '+']) : List Char) =
            [] from rfl]
          rw [List.nil_append, ih true]
          rfl
      · rw [wsSubst, if_neg hw]
        rw [show compileRx (c :: wsSubst (escapeRegex rest) false) =
            .lit c :: compileRx (wsSubst (escapeRegex rest) false) by
          simp [compileRx, not_meta_ne_backslash (by simpa using hm)]]
        rw [tokenizePattern, if_neg hw]
        rw [ih false]

def c6Doc : List Char := "Contractor shall pay within   30\ndays of invoice.".toList

/-- C6: `createFlexiblePattern` escapes every regex metacharacter (so it
matches literally), turns each maximal whitespace run into a
one-or-more-whitespace wildcard, and matches case-insensitively; on the
reference document the anchor "pay within 30 days" matches exactly once,
spanning the occurrence "pay within   30\ndays". -/
theorem createFlexiblePattern_spec :
    (∀ t : List Char, createFlexiblePattern t = tokenizePattern t false) ∧
    (∀ c d : Char, rtMatchAt [.lit c] [d] = some 1 ↔ c.toLower = d.toLower) ∧
    allMatches (createFlexiblePattern "pay within 30 days".toList) c6Doc =
      [(17, 20)] ∧
    (c6Doc.drop 17).take 20 = "pay within   30\ndays".toList := by
  refine ⟨fun t => compile_createFlexiblePattern t false, fun c d => ?_,
    by decide, by decide⟩
  rw [rtMatchAt]
  by_cases h : c.toLower = d.toLower
  · simp [h, rtMatchAt]
  · simp [h]

end LegalSay
